import Mathlib

/-!
Shallow embedding of the matching engine of `src/exchange.py`
(class `Exchange`: `_init_symbol_if_needed`, `on_order_received`).

Prices and quantities are embedded as `Int`: the engine only compares
prices (never does arithmetic on them) and adds/subtracts quantities,
so Python's numeric behaviour on the inputs considered here is exactly
integer behaviour.

The `arrival` field of `Order` is ghost instrumentation: it records the
insertion sequence number of a resting order and is never consulted by
the algorithm (sort keys and the matching condition read only `price`;
trade construction reads only `username` and `price`).  It exists so
that the price-time-priority invariants can be stated.  Likewise
`Exchange.next_arrival` is the ghost counter feeding those stamps.
-/

namespace TradingSys

/-- A resting or inbound order, as the dict
`{'username', 'side', 'symbol', 'price', 'quantity'}` of `exchange.py`,
plus the ghost `arrival` stamp. -/
structure Order where
  username : String
  side : String
  symbol : String
  price : Int
  quantity : Int
  arrival : Nat
deriving DecidableEq, Repr

/-- A trade dict as built in `on_order_received` (lines 122-128). -/
structure Trade where
  symbol : String
  buyer : String
  seller : String
  price : Int
  quantity : Int
deriving DecidableEq, Repr

/-- One symbol's order book: the `{'buy': [...], 'sell': [...]}` dict. -/
structure Book where
  buy : List Order
  sell : List Order
deriving DecidableEq, Repr

/-- The exchange state: `self.order_books` (dict symbol → book) plus the
ghost arrival counter feeding `Order.arrival` stamps. -/
structure Exchange where
  order_books : String → Option Book
  next_arrival : Nat

/-- A fresh `Exchange()` (line 21: `self.order_books = {}`). -/
def emptyExchange : Exchange := ⟨fun _ => none, 0⟩

/-- Sort key for ascending price order: `sorted(orders, key=price)`
(line 71). -/
def priceLe (a b : Order) : Bool := a.price ≤ b.price

/-- Sort key for descending price order:
`sorted(orders, key=price, reverse=True)` (line 79). -/
def priceGe (a b : Order) : Bool := b.price ≤ a.price

/-- Insert `a` into `l` in front of the first element `b` with
`le a b`; auxiliary to `stableSort`. -/
def stableInsert (le : Order → Order → Bool) (a : Order) : List Order → List Order
  | [] => [a]
  | b :: l => if le a b then a :: b :: l else b :: stableInsert le a l

/-- Stable sort by `le`, modelling Python's `sorted` / `list.sort`
(Timsort is stable; any stable sort has the same observable output). -/
def stableSort (le : Order → Order → Bool) : List Order → List Order
  | [] => []
  | b :: l => stableInsert le b (stableSort le l)

/-- A list pairwise ordered by the boolean relation `le`. -/
def SortedB (le : Order → Order → Bool) (l : List Order) : Prop :=
  l.Pairwise (fun a b => le a b = true)

/-- Result of appending a new element and stably re-sorting a list that
was already sorted: the element lands after every entry with an
equal-or-better key and before the first strictly worse one.  Used to
characterise lines 143-149 on sorted books. -/
def insertTail (le : Order → Order → Bool) (a : Order) : List Order → List Order
  | [] => [a]
  | b :: l => if le b a then b :: insertTail le a l else a :: b :: l

/-- The composite price-time key: strictly better price, or equal price
and earlier (ghost) arrival.  With `le := priceLe` this is the ask-side
book order of the spec, with `le := priceGe` the bid-side order. -/
def compO (le : Order → Order → Bool) (x y : Order) : Prop :=
  (le x y = true ∧ le y x = false) ∨ (x.price = y.price ∧ x.arrival < y.arrival)

/-- The mutable state of the matching loop of lines 81-131: the
opposite-side list, `remaining_qty`, and the accumulated `trades`. -/
structure LoopState where
  opposite : List Order
  remaining : Int
  trades : List Trade
deriving DecidableEq, Repr

/-- One iteration of the `while` body (lines 86-131): sort a copy of the
opposite list, scan it for the first order meeting the matching
condition (`for`/`break`); on a hit locate it in the unsorted list by
value (`list.index`), then fill exactly as the three quantity branches
do.  `none` models `matched = False`, after which the `while` exits.
Python mutates the found dict in place; since the located index is the
first value-equal occurrence and equal dicts are interchangeable, the
functional `List.set` at that index is the same list update. -/
def matchStep (sortOpp : List Order → List Order) (cond : Int → Bool)
    (mkT : Order → Int → Trade) (s : LoopState) : Option LoopState :=
  match (sortOpp s.opposite).find? (fun o => cond o.price) with
  | none => none
  | some opp =>
    let i := s.opposite.findIdx (fun x => x == opp)
    if opp.quantity = s.remaining then
      some ⟨s.opposite.eraseIdx i, 0, s.trades ++ [mkT opp s.remaining]⟩
    else if opp.quantity > s.remaining then
      some ⟨s.opposite.set i { opp with quantity := opp.quantity - s.remaining }, 0,
        s.trades ++ [mkT opp s.remaining]⟩
    else
      some ⟨s.opposite.eraseIdx i, s.remaining - opp.quantity,
        s.trades ++ [mkT opp opp.quantity]⟩

/-- The matching `while` loop (line 86) with an explicit iteration
budget; `none` means the budget was exhausted before the loop exited.
The guard is `remaining_qty > 0 and matched and len(opposite_list) > 0`;
`matched` is handled structurally by `matchStep` returning `none`. -/
def matchLoopFuel (sortOpp : List Order → List Order) (cond : Int → Bool)
    (mkT : Order → Int → Trade) : Nat → LoopState → Option LoopState
  | 0, _ => none
  | n + 1, s =>
    if 0 < s.remaining ∧ s.opposite ≠ [] then
      match matchStep sortOpp cond mkT s with
      | none => some s
      | some s' => matchLoopFuel sortOpp cond mkT n s'
    else some s

/-- The matching loop, run with the budget `length + 2` which the
termination theorem proves always sufficient (each productive iteration
removes a resting order or zeroes `remaining_qty`); the `getD` default
is never reached. -/
def matchLoopRun (sortOpp : List Order → List Order) (cond : Int → Bool)
    (mkT : Order → Int → Trade) (s : LoopState) : LoopState :=
  (matchLoopFuel sortOpp cond mkT (s.opposite.length + 2) s).getD s

/-- `sort_opposite` as chosen on lines 71 / 79: best price first, so
ascending for a BUY aggressor (sells), descending otherwise (buys). -/
def sort_opposite (side : String) : List Order → List Order :=
  fun l => if side = "BUY" then stableSort priceLe l else stableSort priceGe l

/-- `match_condition` as chosen on lines 68-69 / 76-77: a BUY matches a
resting price `<=` its own, anything else matches a resting price `>=`
its own. -/
def match_condition (side : String) (myPrice : Int) : Int → Bool :=
  fun oppositePrice =>
    if side = "BUY" then decide (oppositePrice ≤ myPrice)
    else decide (oppositePrice ≥ myPrice)

/-- `trade_info` as built on lines 122-128; `price` is read from the
resting order. -/
def trade_info (side symbol username : String) (opp : Order) (qty : Int) : Trade :=
  { symbol := symbol
    buyer := if side = "BUY" then username else opp.username
    seller := if side = "BUY" then opp.username else username
    price := opp.price
    quantity := qty }

/-- `Exchange._init_symbol_if_needed` (lines 23-29). -/
def init_symbol_if_needed (ex : Exchange) (symbol : String) : Exchange :=
  match ex.order_books symbol with
  | some _ => ex
  | none =>
    { ex with order_books :=
        fun s => if s = symbol then some { buy := [], sell := [] } else ex.order_books s }

/-- `Exchange.on_order_received` (lines 31-152): ensure the book exists,
run the matching loop against the opposite side, then append-and-resort
the residual into the same side if `remaining_qty > 0`.  Returns the
new exchange state (Python mutates in place) and the trade list. -/
def on_order_received (ex : Exchange) (order : Order) : Exchange × List Trade :=
  let symbol := order.symbol
  let side := order.side
  let username := order.username
  let price := order.price
  let quantity := order.quantity
  let ex1 := init_symbol_if_needed ex symbol
  let book := (ex1.order_books symbol).getD { buy := [], sell := [] }
  let opposite_list := if side = "BUY" then book.sell else book.buy
  let same_side_list := if side = "BUY" then book.buy else book.sell
  let final := matchLoopRun (sort_opposite side) (match_condition side price)
      (trade_info side symbol username)
      { opposite := opposite_list, remaining := quantity, trades := [] }
  let new_same :=
    if 0 < final.remaining then
      let new_order : Order :=
        { username := username, symbol := symbol, side := side, price := price,
          quantity := final.remaining, arrival := ex1.next_arrival }
      if side = "BUY" then stableSort priceGe (same_side_list ++ [new_order])
      else stableSort priceLe (same_side_list ++ [new_order])
    else same_side_list
  let book' := if side = "BUY" then { buy := new_same, sell := final.opposite }
               else { buy := final.opposite, sell := new_same }
  ({ order_books := fun s => if s = symbol then some book' else ex1.order_books s,
     next_arrival := ex1.next_arrival + 1 }, final.trades)

/-- Reference form of the matching loop on an already price-sorted
opposite list: the scanned hit is then always the front of the list.
Proved equal to `matchLoopRun` on sorted lists; all book-invariant
reasoning is done on this structurally recursive form. -/
def runLoop (cond : Int → Bool) (mkT : Order → Int → Trade) :
    List Order → Int → List Order × Int × List Trade
  | [], r => ([], r, [])
  | o :: t, r =>
    if 0 < r then
      if cond o.price then
        if o.quantity = r then (t, 0, [mkT o r])
        else if o.quantity > r then
          ({ o with quantity := o.quantity - r } :: t, 0, [mkT o r])
        else
          let res := runLoop cond mkT t (r - o.quantity)
          (res.1, res.2.1, mkT o o.quantity :: res.2.2)
      else (o :: t, r, [])
    else (o :: t, r, [])

/-- Process a whole sequence of inbound orders from a given state,
concatenating the emitted trades (the single sequential consumer of
`main`'s callback). -/
def processAll : Exchange → List Order → Exchange × List Trade
  | ex, [] => (ex, [])
  | ex, o :: rest =>
    let p := on_order_received ex o
    let q := processAll p.1 rest
    (q.1, p.2 ++ q.2)

/-- Exchange states reachable from a fresh `Exchange()` by processing
any sequence of inbound orders. -/
inductive Reachable : Exchange → Prop
  | empty : Reachable emptyExchange
  | step (ex : Exchange) (o : Order) : Reachable ex → Reachable (on_order_received ex o).1

/-- Total resting quantity of a list of orders. -/
def sumQty (l : List Order) : Int := (l.map Order.quantity).sum

/-- Total quantity of a list of trades. -/
def sumTQty (ts : List Trade) : Int := (ts.map Trade.quantity).sum

/-- Total traded quantity for one symbol. -/
def tradedQty (S : String) (ts : List Trade) : Int :=
  ((ts.filter (fun t => t.symbol == S)).map Trade.quantity).sum

/-- Total submitted quantity for one symbol on one side (`buySide = true`
for BUY orders, i.e. `side == "BUY"`). -/
def submittedQty (S : String) (buySide : Bool) (orders : List Order) : Int :=
  ((orders.filter (fun o => o.symbol == S && ((o.side == "BUY") == buySide))).map
    Order.quantity).sum

/-- Total quantity resting in the book of symbol `S` on one side. -/
def restingQty (ex : Exchange) (S : String) (buySide : Bool) : Int :=
  match ex.order_books S with
  | none => 0
  | some b => sumQty (if buySide then b.buy else b.sell)

/-- The spec's preconditions on an inbound order (spec §4.2, §6). -/
def ValidOrder (o : Order) : Prop :=
  0 < o.quantity ∧ 0 < o.price ∧ (o.side = "BUY" ∨ o.side = "SELL")

instance (o : Order) : Decidable (ValidOrder o) := by
  unfold ValidOrder
  infer_instance

/-- Bid-book order: price descending, arrival ascending at equal price. -/
def bidComp (x y : Order) : Prop :=
  y.price < x.price ∨ (x.price = y.price ∧ x.arrival < y.arrival)

/-- Ask-book order: price ascending, arrival ascending at equal price. -/
def askComp (x y : Order) : Prop :=
  x.price < y.price ∨ (x.price = y.price ∧ x.arrival < y.arrival)

/-- Invariants of a single book under ghost arrival bound `c`: both
sides sorted by the composite price-time key, arrival stamps distinct
and below `c`, resting quantities positive, and the book uncrossed. -/
def BookInv (c : Nat) (b : Book) : Prop :=
  b.buy.Pairwise bidComp ∧ b.sell.Pairwise askComp ∧
  b.buy.Pairwise (fun x y => x.arrival ≠ y.arrival) ∧
  b.sell.Pairwise (fun x y => x.arrival ≠ y.arrival) ∧
  (∀ o ∈ b.buy, o.arrival < c ∧ 0 < o.quantity) ∧
  (∀ o ∈ b.sell, o.arrival < c ∧ 0 < o.quantity) ∧
  (∀ x ∈ b.buy, ∀ y ∈ b.sell, x.price < y.price)

/-- Invariant of a whole exchange state. -/
def ExInv (ex : Exchange) : Prop :=
  ∀ S b, ex.order_books S = some b → BookInv ex.next_arrival b

/-- Replace an order's side string by `"SELL"`, the canonical value for
the `else` branch of lines 72-79 (the side field of resting orders is
never read by the algorithm). -/
def withSellSide (o : Order) : Order := { o with side := "SELL" }

/-- Concrete inbound orders and states used by the evaluation witnesses. -/
def wSellA : Order := ⟨"alice", "SELL", "AAPL", 50, 10, 0⟩

def wBuyA : Order := ⟨"bob", "BUY", "AAPL", 40, 5, 0⟩

def wSellA2 : Order := ⟨"carl", "SELL", "AAPL", 60, 7, 0⟩

def wBuyA2 : Order := ⟨"dave", "BUY", "AAPL", 30, 8, 0⟩

def exRest : Exchange := (processAll emptyExchange [wSellA, wBuyA, wSellA2, wBuyA2]).1

def wBuyCross : Order := ⟨"erin", "BUY", "AAPL", 55, 4, 0⟩

def wSellP : Order := ⟨"ann", "SELL", "AAPL", 100, 5, 0⟩

def wSellQ : Order := ⟨"ben", "SELL", "AAPL", 100, 5, 0⟩

def exPair : Exchange := (processAll emptyExchange [wSellP, wSellQ]).1

def wBuyPart : Order := ⟨"cat", "BUY", "AAPL", 100, 3, 0⟩

def wFoo : Order := ⟨"fred", "HOLD", "AAPL", 45, 3, 0⟩

def wZero : Order := ⟨"gina", "BUY", "AAPL", 45, 0, 0⟩

/-! ## Theorems: the stable sort -/

theorem stableInsert_perm (le : Order → Order → Bool) (a : Order) :
    ∀ l : List Order, (stableInsert le a l).Perm (a :: l) := by
  intro l
  induction l with
  | nil => simp [stableInsert]
  | cons b t ih =>
    simp only [stableInsert]
    by_cases h : le a b
    · simp [h]
    · simp only [h, if_false]
      exact (ih.cons b).trans (List.Perm.swap a b t)

theorem stableSort_perm (le : Order → Order → Bool) :
    ∀ l : List Order, (stableSort le l).Perm l := by
  intro l
  induction l with
  | nil => simp [stableSort]
  | cons b t ih =>
    exact (stableInsert_perm le b (stableSort le t)).trans (ih.cons b)

theorem mem_stableSort (le : Order → Order → Bool) (l : List Order) (x : Order) :
    x ∈ stableSort le l ↔ x ∈ l :=
  (stableSort_perm le l).mem_iff

theorem mem_insertTail (le : Order → Order → Bool) (a x : Order) :
    ∀ l : List Order, x ∈ insertTail le a l ↔ x = a ∨ x ∈ l := by
  intro l
  induction l with
  | nil => simp [insertTail]
  | cons b t ih =>
    simp only [insertTail]
    by_cases h : le b a = true
    · rw [if_pos h]
      simp only [List.mem_cons, ih]
      tauto
    · rw [if_neg h]
      simp only [List.mem_cons]

theorem stableInsert_of_forall_le (le : Order → Order → Bool) (b : Order)
    (t : List Order) (h : ∀ x ∈ t, le b x = true) :
    stableInsert le b t = b :: t := by
  cases t with
  | nil => rfl
  | cons c t' => simp [stableInsert, h c (by simp)]

theorem insertTail_of_forall_not (le : Order → Order → Bool) (a : Order)
    (t : List Order) (h : ∀ x ∈ t, ¬ le x a = true) :
    insertTail le a t = a :: t := by
  cases t with
  | nil => rfl
  | cons c t' => simp [insertTail, h c (by simp)]

theorem sortedB_stableInsert (le : Order → Order → Bool)
    (htot : ∀ a b : Order, le a b = true ∨ le b a = true)
    (htrans : ∀ a b c : Order, le a b = true → le b c = true → le a c = true)
    (a : Order) :
    ∀ l : List Order, SortedB le l → SortedB le (stableInsert le a l) := by
  intro l hl
  induction l with
  | nil => simp [stableInsert, SortedB]
  | cons b t ih =>
    rw [SortedB, List.pairwise_cons] at hl
    obtain ⟨hb, ht⟩ := hl
    simp only [stableInsert]
    by_cases h : le a b = true
    · rw [if_pos h]
      rw [SortedB, List.pairwise_cons]
      refine ⟨?_, List.pairwise_cons.mpr ⟨hb, ht⟩⟩
      intro x hx
      rcases List.mem_cons.mp hx with rfl | hx
      · exact h
      · exact htrans a b x h (hb x hx)
    · rw [if_neg h]
      rw [SortedB, List.pairwise_cons]
      refine ⟨?_, ih ht⟩
      intro x hx
      rcases List.mem_cons.mp ((stableInsert_perm le a t).mem_iff.mp hx) with h' | h'
      · rw [h']
        rcases htot a b with h'' | h''
        · exact absurd h'' h
        · exact h''
      · exact hb x h'

theorem sortedB_stableSort (le : Order → Order → Bool)
    (htot : ∀ a b : Order, le a b = true ∨ le b a = true)
    (htrans : ∀ a b c : Order, le a b = true → le b c = true → le a c = true) :
    ∀ l : List Order, SortedB le (stableSort le l) := by
  intro l
  induction l with
  | nil => simp [stableSort, SortedB]
  | cons b t ih => exact sortedB_stableInsert le htot htrans b _ ih

theorem stableSort_eq_self (le : Order → Order → Bool) :
    ∀ l : List Order, SortedB le l → stableSort le l = l := by
  intro l hl
  induction l with
  | nil => rfl
  | cons b t ih =>
    rw [SortedB, List.pairwise_cons] at hl
    obtain ⟨hb, ht⟩ := hl
    simp only [stableSort]
    rw [ih ht]
    exact stableInsert_of_forall_le le b t hb

theorem stableSort_append_single (le : Order → Order → Bool)
    (htrans : ∀ a b c : Order, le a b = true → le b c = true → le a c = true)
    (a : Order) :
    ∀ l : List Order, SortedB le l → stableSort le (l ++ [a]) = insertTail le a l := by
  intro l hl
  induction l with
  | nil => simp [stableSort, stableInsert, insertTail]
  | cons b t ih =>
    rw [SortedB, List.pairwise_cons] at hl
    obtain ⟨hb, ht⟩ := hl
    have hstep : stableSort le ((b :: t) ++ [a])
        = stableInsert le b (stableSort le (t ++ [a])) := rfl
    rw [hstep, ih ht]
    simp only [insertTail]
    by_cases h : le b a = true
    · rw [if_pos h]
      apply stableInsert_of_forall_le
      intro x hx
      rcases (mem_insertTail le a x t).mp hx with rfl | hx
      · exact h
      · exact hb x hx
    · rw [if_neg h]
      have hta : ∀ x ∈ t, ¬ le x a = true := by
        intro x hx hxa
        exact h (htrans b x a (hb x hx) hxa)
      rw [insertTail_of_forall_not le a t hta]
      simp only [stableInsert]
      rw [if_neg h]
      congr 1
      exact stableInsert_of_forall_le le b t hb

theorem compO_le (le : Order → Order → Bool)
    (hpe : ∀ x y : Order, x.price = y.price → le x y = true)
    {x y : Order} (h : compO le x y) : le x y = true := by
  rcases h with ⟨h1, _⟩ | ⟨h1, _⟩
  · exact h1
  · exact hpe x y h1

theorem sortedB_of_pairwise_compO (le : Order → Order → Bool)
    (hpe : ∀ x y : Order, x.price = y.price → le x y = true)
    {l : List Order} (h : l.Pairwise (compO le)) : SortedB le l :=
  h.imp (fun hc => compO_le le hpe hc)

theorem pairwise_compO_insertTail (le : Order → Order → Bool)
    (htot : ∀ a b : Order, le a b = true ∨ le b a = true)
    (htrans : ∀ a b c : Order, le a b = true → le b c = true → le a c = true)
    (hpe : ∀ x y : Order, x.price = y.price → le x y = true)
    (hps : ∀ x y : Order, le x y = true → le y x = true → x.price = y.price)
    (a : Order) :
    ∀ l : List Order, l.Pairwise (compO le) →
      (∀ x ∈ l, x.arrival < a.arrival) →
      (insertTail le a l).Pairwise (compO le) := by
  intro l hl hfresh
  induction l with
  | nil => simp [insertTail]
  | cons b t ih =>
    rw [List.pairwise_cons] at hl
    obtain ⟨hb, ht⟩ := hl
    simp only [insertTail]
    by_cases h : le b a = true
    · rw [if_pos h]
      rw [List.pairwise_cons]
      refine ⟨?_, ih ht (fun x hx => hfresh x (List.mem_cons_of_mem b hx))⟩
      intro x hx
      rcases (mem_insertTail le a x t).mp hx with rfl | hx
      · by_cases h' : le x b = true
        · exact Or.inr ⟨hps b x h h', hfresh b (by simp)⟩
        · exact Or.inl ⟨h, Bool.not_eq_true _ ▸ h'⟩
      · exact hb x hx
    · rw [if_neg h]
      rw [List.pairwise_cons]
      have hab : le a b = true := by
        rcases htot a b with h' | h'
        · exact h'
        · exact absurd h' h
      refine ⟨?_, List.pairwise_cons.mpr ⟨hb, ht⟩⟩
      intro x hx
      rcases List.mem_cons.mp hx with rfl | hx
      · exact Or.inl ⟨hab, Bool.not_eq_true _ ▸ h⟩
      · have hbx : le b x = true := compO_le le hpe (hb x hx)
        have hax : le a x = true := htrans a b x hab hbx
        have hxa : ¬ le x a = true := by
          intro hxa
          exact h (htrans b x a hbx hxa)
        exact Or.inl ⟨hax, Bool.not_eq_true _ ▸ hxa⟩

theorem priceLe_total : ∀ a b : Order, priceLe a b = true ∨ priceLe b a = true := by
  intro a b; simp only [priceLe, decide_eq_true_eq]; omega

theorem priceLe_trans : ∀ a b c : Order,
    priceLe a b = true → priceLe b c = true → priceLe a c = true := by
  intro a b c; simp only [priceLe, decide_eq_true_eq]; omega

theorem priceLe_of_eq : ∀ x y : Order, x.price = y.price → priceLe x y = true := by
  intro x y h; simp only [priceLe, decide_eq_true_eq]; omega

theorem priceLe_antisymm : ∀ x y : Order,
    priceLe x y = true → priceLe y x = true → x.price = y.price := by
  intro x y; simp only [priceLe, decide_eq_true_eq]; omega

theorem priceGe_total : ∀ a b : Order, priceGe a b = true ∨ priceGe b a = true := by
  intro a b; simp only [priceGe, decide_eq_true_eq]; omega

theorem priceGe_trans : ∀ a b c : Order,
    priceGe a b = true → priceGe b c = true → priceGe a c = true := by
  intro a b c; simp only [priceGe, decide_eq_true_eq]; omega

theorem priceGe_of_eq : ∀ x y : Order, x.price = y.price → priceGe x y = true := by
  intro x y h; simp only [priceGe, decide_eq_true_eq]; omega

theorem priceGe_antisymm : ∀ x y : Order,
    priceGe x y = true → priceGe y x = true → x.price = y.price := by
  intro x y; simp only [priceGe, decide_eq_true_eq]; omega

/-! ## Theorems: the matching loop -/

theorem matchStep_some_cases (le : Order → Order → Bool) (cond : Int → Bool)
    (mkT : Order → Int → Trade) (s s' : LoopState)
    (h : matchStep (stableSort le) cond mkT s = some s') :
    s'.opposite.length + 1 = s.opposite.length ∨
      (s'.opposite.length = s.opposite.length ∧ s'.remaining = 0) := by
  unfold matchStep at h
  cases hf : (stableSort le s.opposite).find? (fun o => cond o.price) with
  | none => rw [hf] at h; exact absurd h (by simp)
  | some opp =>
    rw [hf] at h
    have hopp : opp ∈ s.opposite :=
      (stableSort_perm le s.opposite).mem_iff.mp (List.mem_of_find?_eq_some hf)
    have hidx : s.opposite.findIdx (fun x => x == opp) < s.opposite.length :=
      List.findIdx_lt_length_of_exists ⟨opp, hopp, by simp⟩
    simp only at h
    by_cases he : opp.quantity = s.remaining
    · rw [if_pos he] at h
      cases h
      left
      simp only [List.length_eraseIdx, if_pos hidx]
      omega
    · rw [if_neg he] at h
      by_cases hg : opp.quantity > s.remaining
      · rw [if_pos hg] at h
        cases h
        right
        simp [List.length_set]
      · rw [if_neg hg] at h
        cases h
        left
        simp only [List.length_eraseIdx, if_pos hidx]
        omega

theorem matchLoopFuel_of_nonpos (sortOpp : List Order → List Order) (cond : Int → Bool)
    (mkT : Order → Int → Trade) (n : Nat) (s : LoopState) (h : s.remaining ≤ 0) :
    matchLoopFuel sortOpp cond mkT (n + 1) s = some s := by
  rw [matchLoopFuel]
  rw [if_neg]
  intro hg
  omega

theorem matchLoopFuel_isSome (le : Order → Order → Bool) (cond : Int → Bool)
    (mkT : Order → Int → Trade) :
    ∀ n (s : LoopState), s.opposite.length + 2 ≤ n →
      ∃ s', matchLoopFuel (stableSort le) cond mkT n s = some s' := by
  intro n
  induction n with
  | zero => intro s h; omega
  | succ m ih =>
    intro s h
    rw [matchLoopFuel]
    by_cases hg : 0 < s.remaining ∧ s.opposite ≠ []
    · rw [if_pos hg]
      cases hms : matchStep (stableSort le) cond mkT s with
      | none => exact ⟨s, rfl⟩
      | some s' =>
        rcases matchStep_some_cases le cond mkT s s' hms with hlen | ⟨_, hrem⟩
        · exact ih s' (by omega)
        · obtain ⟨m', rfl⟩ : ∃ m', m = m' + 1 := ⟨m - 1, by omega⟩
          exact ⟨s', matchLoopFuel_of_nonpos _ _ _ _ _ (by omega)⟩
    · rw [if_neg hg]
      exact ⟨s, rfl⟩

theorem find?_stableSort_of_head (le : Order → Order → Bool) (cond : Int → Bool)
    (hdc : ∀ a b : Order, le a b = true → cond b.price = true → cond a.price = true)
    (o : Order) (t : List Order) (hs : SortedB le (o :: t)) :
    (stableSort le (o :: t)).find? (fun x => cond x.price)
      = if cond o.price then some o else none := by
  rw [stableSort_eq_self le _ hs]
  by_cases hc : cond o.price = true
  · rw [if_pos hc]
    exact List.find?_cons_of_pos t hc
  · rw [if_neg hc]
    rw [List.find?_cons_of_neg t hc]
    rw [List.find?_eq_none]
    intro x hx hcx
    rw [SortedB, List.pairwise_cons] at hs
    exact hc (hdc o x (hs.1 x hx) hcx)

theorem matchLoopFuel_succ_of_step (sortOpp : List Order → List Order) (cond : Int → Bool)
    (mkT : Order → Int → Trade) (n : Nat) (s s' : LoopState)
    (h1 : 0 < s.remaining) (h2 : s.opposite ≠ [])
    (h3 : matchStep sortOpp cond mkT s = some s') :
    matchLoopFuel sortOpp cond mkT (n + 1) s = matchLoopFuel sortOpp cond mkT n s' := by
  rw [matchLoopFuel, if_pos ⟨h1, h2⟩, h3]

theorem matchLoopFuel_succ_of_none (sortOpp : List Order → List Order) (cond : Int → Bool)
    (mkT : Order → Int → Trade) (n : Nat) (s : LoopState)
    (h3 : matchStep sortOpp cond mkT s = none) :
    matchLoopFuel sortOpp cond mkT (n + 1) s = some s := by
  rw [matchLoopFuel]
  by_cases hg : 0 < s.remaining ∧ s.opposite ≠ []
  · rw [if_pos hg, h3]
  · rw [if_neg hg]

theorem matchLoopFuel_eq_runLoop (le : Order → Order → Bool) (cond : Int → Bool)
    (mkT : Order → Int → Trade)
    (hdc : ∀ a b : Order, le a b = true → cond b.price = true → cond a.price = true) :
    ∀ l : List Order, SortedB le l → ∀ (r : Int) (acc : List Trade),
      matchLoopFuel (stableSort le) cond mkT (l.length + 2) ⟨l, r, acc⟩
        = some ⟨(runLoop cond mkT l r).1, (runLoop cond mkT l r).2.1,
            acc ++ (runLoop cond mkT l r).2.2⟩ := by
  intro l
  induction l with
  | nil =>
    intro _ r acc
    rw [matchLoopFuel]
    rw [if_neg (by simp)]
    simp [runLoop]
  | cons o t ih =>
    intro hs r acc
    have hlen : (o :: t).length + 2 = (t.length + 2) + 1 := by simp
    by_cases hr : 0 < r
    · have hfind := find?_stableSort_of_head le cond hdc o t hs
      by_cases hc : cond o.price = true
      · rw [if_pos hc] at hfind
        have hidx : (o :: t).findIdx (fun x => x == o) = 0 := by
          rw [List.findIdx_cons]
          simp
        by_cases he : o.quantity = r
        · have hstep : matchStep (stableSort le) cond mkT ⟨o :: t, r, acc⟩
              = some ⟨t, 0, acc ++ [mkT o r]⟩ := by
            unfold matchStep
            rw [hfind]
            simp only [hidx]
            rw [if_pos he]
            rfl
          rw [hlen, matchLoopFuel_succ_of_step _ _ _ _ _ _ hr (by simp) hstep]
          obtain ⟨m, hm⟩ : ∃ m, t.length + 2 = m + 1 := ⟨t.length + 1, rfl⟩
          rw [hm, matchLoopFuel_of_nonpos _ _ _ _ _ (by simp)]
          rw [runLoop]
          rw [if_pos hr, if_pos hc, if_pos he]
        · by_cases hgt : o.quantity > r
          · have hstep : matchStep (stableSort le) cond mkT ⟨o :: t, r, acc⟩
                = some ⟨{ o with quantity := o.quantity - r } :: t, 0, acc ++ [mkT o r]⟩ := by
              unfold matchStep
              rw [hfind]
              simp only [hidx]
              rw [if_neg he, if_pos hgt]
              rw [List.set_cons_zero]
            rw [hlen, matchLoopFuel_succ_of_step _ _ _ _ _ _ hr (by simp) hstep]
            obtain ⟨m, hm⟩ : ∃ m, t.length + 2 = m + 1 := ⟨t.length + 1, rfl⟩
            rw [hm, matchLoopFuel_of_nonpos _ _ _ _ _ (by simp)]
            rw [runLoop]
            rw [if_pos hr, if_pos hc, if_neg he, if_pos hgt]
          · have hstep : matchStep (stableSort le) cond mkT ⟨o :: t, r, acc⟩
                = some ⟨t, r - o.quantity, acc ++ [mkT o o.quantity]⟩ := by
              unfold matchStep
              rw [hfind]
              simp only [hidx]
              rw [if_neg he, if_neg hgt]
              rfl
            rw [hlen, matchLoopFuel_succ_of_step _ _ _ _ _ _ hr (by simp) hstep]
            rw [ih (List.Pairwise.of_cons hs) (r - o.quantity) (acc ++ [mkT o o.quantity])]
            rw [runLoop]
            rw [if_pos hr, if_pos hc, if_neg he, if_neg hgt]
            simp
      · have hstep : matchStep (stableSort le) cond mkT ⟨o :: t, r, acc⟩ = none := by
          unfold matchStep
          rw [hfind, if_neg hc]
        rw [hlen, matchLoopFuel_succ_of_none _ _ _ _ _ hstep]
        rw [runLoop]
        rw [if_pos hr, if_neg hc]
        simp
    · rw [hlen, matchLoopFuel_of_nonpos _ _ _ _ _ (show r ≤ 0 by omega)]
      rw [runLoop]
      rw [if_neg hr]
      simp

theorem matchLoopRun_eq_runLoop (le : Order → Order → Bool) (cond : Int → Bool)
    (mkT : Order → Int → Trade)
    (hdc : ∀ a b : Order, le a b = true → cond b.price = true → cond a.price = true)
    (l : List Order) (hs : SortedB le l) (r : Int) :
    matchLoopRun (stableSort le) cond mkT ⟨l, r, []⟩
      = ⟨(runLoop cond mkT l r).1, (runLoop cond mkT l r).2.1,
          (runLoop cond mkT l r).2.2⟩ := by
  unfold matchLoopRun
  rw [matchLoopFuel_eq_runLoop le cond mkT hdc l hs r []]
  simp

/-- The loop only ever consumes the opposite list from the front: the
surviving list is a suffix of the original, with at most its first
element's quantity reduced. -/
theorem runLoop_normalForm (cond : Int → Bool) (mkT : Order → Int → Trade) :
    ∀ (l : List Order) (r : Int), ∃ k : Nat,
      (runLoop cond mkT l r).1 = l.drop k ∨
      ∃ (hk : k < l.length) (q : Int),
        (runLoop cond mkT l r).1 = { l.get ⟨k, hk⟩ with quantity := q } :: l.drop (k + 1) := by
  intro l
  induction l with
  | nil => intro r; exact ⟨0, Or.inl rfl⟩
  | cons o t ih =>
    intro r
    by_cases hr : 0 < r
    · by_cases hc : cond o.price = true
      · by_cases he : o.quantity = r
        · refine ⟨1, Or.inl ?_⟩
          rw [runLoop, if_pos hr, if_pos hc, if_pos he]
          rfl
        · by_cases hgt : o.quantity > r
          · refine ⟨0, Or.inr ⟨by simp, o.quantity - r, ?_⟩⟩
            rw [runLoop, if_pos hr, if_pos hc, if_neg he, if_pos hgt]
            rfl
          · obtain ⟨k, hk⟩ := ih (r - o.quantity)
            have hres : (runLoop cond mkT (o :: t) r).1
                = (runLoop cond mkT t (r - o.quantity)).1 := by
              rw [runLoop, if_pos hr, if_pos hc, if_neg he, if_neg hgt]
            rcases hk with hk | ⟨hklt, q, hk⟩
            · exact ⟨k + 1, Or.inl (by rw [hres, hk]; rfl)⟩
            · refine ⟨k + 1, Or.inr ⟨by simpa using Nat.succ_lt_succ hklt, q, ?_⟩⟩
              rw [hres, hk]
              rfl
      · refine ⟨0, Or.inl ?_⟩
        rw [runLoop, if_pos hr, if_neg hc]
        rfl
    · refine ⟨0, Or.inl ?_⟩
      rw [runLoop, if_neg hr]
      rfl

theorem runLoop_mem (cond : Int → Bool) (mkT : Order → Int → Trade)
    (l : List Order) (r : Int) :
    ∀ x ∈ (runLoop cond mkT l r).1, ∃ y ∈ l, ∃ q : Int, x = { y with quantity := q } := by
  intro x hx
  obtain ⟨k, hk | ⟨hklt, q, hk⟩⟩ := runLoop_normalForm cond mkT l r
  · rw [hk] at hx
    refine ⟨x, (List.drop_sublist k l).mem hx, x.quantity, ?_⟩
    cases x
    rfl
  · rw [hk] at hx
    rcases List.mem_cons.mp hx with rfl | hx
    · exact ⟨l.get ⟨k, hklt⟩, List.get_mem l k hklt, q, rfl⟩
    · refine ⟨x, (List.drop_sublist (k + 1) l).mem hx, x.quantity, ?_⟩
      cases x
      rfl

theorem runLoop_pos (cond : Int → Bool) (mkT : Order → Int → Trade) :
    ∀ (l : List Order) (r : Int), (∀ x ∈ l, 0 < x.quantity) →
      ∀ x ∈ (runLoop cond mkT l r).1, 0 < x.quantity := by
  intro l
  induction l with
  | nil => intro r _ x hx; simp [runLoop] at hx
  | cons o t ih =>
    intro r hpos x hx
    by_cases hr : 0 < r
    · by_cases hc : cond o.price = true
      · by_cases he : o.quantity = r
        · rw [runLoop, if_pos hr, if_pos hc, if_pos he] at hx
          exact hpos x (List.mem_cons_of_mem o hx)
        · by_cases hgt : o.quantity > r
          · rw [runLoop, if_pos hr, if_pos hc, if_neg he, if_pos hgt] at hx
            rcases List.mem_cons.mp hx with rfl | hx
            · simp only []
              omega
            · exact hpos x (List.mem_cons_of_mem o hx)
          · rw [runLoop, if_pos hr, if_pos hc, if_neg he, if_neg hgt] at hx
            exact ih (r - o.quantity) (fun y hy => hpos y (List.mem_cons_of_mem o hy)) x hx
      · rw [runLoop, if_pos hr, if_neg hc] at hx
        exact hpos x hx
    · rw [runLoop, if_neg hr] at hx
      exact hpos x hx

theorem runLoop_remaining (cond : Int → Bool) (mkT : Order → Int → Trade)
    (hq : ∀ (o : Order) (q : Int), (mkT o q).quantity = q) :
    ∀ (l : List Order) (r : Int),
      (runLoop cond mkT l r).2.1 = r - sumTQty (runLoop cond mkT l r).2.2 := by
  intro l
  induction l with
  | nil => intro r; simp [runLoop, sumTQty]
  | cons o t ih =>
    intro r
    by_cases hr : 0 < r
    · by_cases hc : cond o.price = true
      · by_cases he : o.quantity = r
        · rw [runLoop, if_pos hr, if_pos hc, if_pos he]
          simp [sumTQty, hq]
        · by_cases hgt : o.quantity > r
          · rw [runLoop, if_pos hr, if_pos hc, if_neg he, if_pos hgt]
            simp [sumTQty, hq]
          · rw [runLoop, if_pos hr, if_pos hc, if_neg he, if_neg hgt]
            simp only [sumTQty, List.map_cons, List.sum_cons, hq]
            have := ih (r - o.quantity)
            rw [sumTQty] at this
            omega
      · rw [runLoop, if_pos hr, if_neg hc]
        simp [sumTQty]
    · rw [runLoop, if_neg hr]
      simp [sumTQty]

theorem runLoop_remaining_nonneg (cond : Int → Bool) (mkT : Order → Int → Trade) :
    ∀ (l : List Order) (r : Int), 0 ≤ r → 0 ≤ (runLoop cond mkT l r).2.1 := by
  intro l
  induction l with
  | nil => intro r hr; simpa [runLoop] using hr
  | cons o t ih =>
    intro r hr
    by_cases hpos : 0 < r
    · by_cases hc : cond o.price = true
      · by_cases he : o.quantity = r
        · rw [runLoop, if_pos hpos, if_pos hc, if_pos he]
        · by_cases hgt : o.quantity > r
          · rw [runLoop, if_pos hpos, if_pos hc, if_neg he, if_pos hgt]
          · rw [runLoop, if_pos hpos, if_pos hc, if_neg he, if_neg hgt]
            exact ih (r - o.quantity) (by omega)
      · rw [runLoop, if_pos hpos, if_neg hc]
        exact hr
    · rw [runLoop, if_neg hpos]
      exact hr

theorem runLoop_sum (cond : Int → Bool) (mkT : Order → Int → Trade)
    (hq : ∀ (o : Order) (q : Int), (mkT o q).quantity = q) :
    ∀ (l : List Order) (r : Int),
      sumQty (runLoop cond mkT l r).1 + sumTQty (runLoop cond mkT l r).2.2 = sumQty l := by
  intro l
  induction l with
  | nil => intro r; simp [runLoop, sumQty, sumTQty]
  | cons o t ih =>
    intro r
    by_cases hr : 0 < r
    · by_cases hc : cond o.price = true
      · by_cases he : o.quantity = r
        · rw [runLoop, if_pos hr, if_pos hc, if_pos he]
          simp only [sumQty, sumTQty, List.map_cons, List.sum_cons, List.map_nil,
            List.sum_nil, hq]
          omega
        · by_cases hgt : o.quantity > r
          · rw [runLoop, if_pos hr, if_pos hc, if_neg he, if_pos hgt]
            simp only [sumQty, sumTQty, List.map_cons, List.sum_cons, List.map_nil,
              List.sum_nil, hq]
            omega
          · rw [runLoop, if_pos hr, if_pos hc, if_neg he, if_neg hgt]
            have := ih (r - o.quantity)
            simp only [sumQty, sumTQty, List.map_cons, List.sum_cons, hq] at this ⊢
            omega
      · rw [runLoop, if_pos hr, if_neg hc]
        simp [sumTQty]
    · rw [runLoop, if_neg hr]
      simp [sumTQty]

/-- If the loop stops with remaining quantity left over, nothing left in
the opposite list satisfies the matching condition (the no-cross exit:
on a sorted list the front is the best price, so once it fails nothing
behind it can match; cf. lines 86-93). -/
theorem runLoop_exit (le : Order → Order → Bool) (cond : Int → Bool)
    (mkT : Order → Int → Trade)
    (hdc : ∀ a b : Order, le a b = true → cond b.price = true → cond a.price = true) :
    ∀ (l : List Order) (r : Int), SortedB le l →
      0 < (runLoop cond mkT l r).2.1 →
      ∀ x ∈ (runLoop cond mkT l r).1, cond x.price = false := by
  intro l
  induction l with
  | nil => intro r _ _ x hx; simp [runLoop] at hx
  | cons o t ih =>
    intro r hs hrem x hx
    by_cases hr : 0 < r
    · by_cases hc : cond o.price = true
      · by_cases he : o.quantity = r
        · rw [runLoop, if_pos hr, if_pos hc, if_pos he] at hrem
          simp at hrem
        · by_cases hgt : o.quantity > r
          · rw [runLoop, if_pos hr, if_pos hc, if_neg he, if_pos hgt] at hrem
            simp at hrem
          · rw [runLoop, if_pos hr, if_pos hc, if_neg he, if_neg hgt] at hrem hx
            exact ih (r - o.quantity) (List.Pairwise.of_cons hs) hrem x hx
      · rw [runLoop, if_pos hr, if_neg hc] at hx
        rcases List.mem_cons.mp hx with rfl | hx
        · exact Bool.not_eq_true _ ▸ hc
        · rw [SortedB, List.pairwise_cons] at hs
          by_cases hcx : cond x.price = true
          · exact absurd (hdc o x (hs.1 x hx) hcx) hc
          · exact Bool.not_eq_true _ ▸ hcx
    · rw [runLoop, if_neg hr] at hrem
      exact absurd hrem hr

/-- Every emitted trade is built by `trade_info` from an order that was
resting in the opposite list when the aggressor arrived and whose price
met the matching condition. -/
theorem runLoop_trades (cond : Int → Bool) (mkT : Order → Int → Trade) :
    ∀ (l : List Order) (r : Int), ∀ tr ∈ (runLoop cond mkT l r).2.2,
      ∃ o ∈ l, ∃ q : Int, tr = mkT o q ∧ cond o.price = true := by
  intro l
  induction l with
  | nil => intro r tr htr; simp [runLoop] at htr
  | cons o t ih =>
    intro r tr htr
    by_cases hr : 0 < r
    · by_cases hc : cond o.price = true
      · by_cases he : o.quantity = r
        · rw [runLoop, if_pos hr, if_pos hc, if_pos he] at htr
          rcases List.mem_singleton.mp htr with rfl
          exact ⟨o, by simp, r, rfl, hc⟩
        · by_cases hgt : o.quantity > r
          · rw [runLoop, if_pos hr, if_pos hc, if_neg he, if_pos hgt] at htr
            rcases List.mem_singleton.mp htr with rfl
            exact ⟨o, by simp, r, rfl, hc⟩
          · rw [runLoop, if_pos hr, if_pos hc, if_neg he, if_neg hgt] at htr
            rcases List.mem_cons.mp htr with rfl | htr
            · exact ⟨o, by simp, o.quantity, rfl, hc⟩
            · obtain ⟨o', ho', q, hq, hc'⟩ := ih (r - o.quantity) tr htr
              exact ⟨o', List.mem_cons_of_mem o ho', q, hq, hc'⟩
      · rw [runLoop, if_pos hr, if_neg hc] at htr
        simp at htr
    · rw [runLoop, if_neg hr] at htr
      simp at htr

theorem runLoop_pairwise (cond : Int → Bool) (mkT : Order → Int → Trade)
    (R : Order → Order → Prop)
    (hqb : ∀ (x y : Order) (q : Int), R x y → R { x with quantity := q } y)
    (l : List Order) (r : Int) (hl : l.Pairwise R) :
    ((runLoop cond mkT l r).1).Pairwise R := by
  obtain ⟨k, hk | ⟨hklt, q, hk⟩⟩ := runLoop_normalForm cond mkT l r
  · rw [hk]
    exact List.Pairwise.sublist (List.drop_sublist k l) hl
  · rw [hk]
    rw [List.pairwise_cons]
    constructor
    · intro z hz
      obtain ⟨n, hn, hzn⟩ := List.mem_iff_getElem.mp hz
      have hn' : k + 1 + n < l.length := by
        have := hn
        simp only [List.length_drop] at this
        omega
      have hzl : z = l.get ⟨k + 1 + n, hn'⟩ := by
        rw [← hzn]
        simp [List.getElem_drop]
      rw [hzl]
      have hrel := List.pairwise_iff_getElem.mp hl k (k + 1 + n) hklt hn' (by omega)
      exact hqb _ _ q hrel
    · exact List.Pairwise.sublist (List.drop_sublist (k + 1) l) hl

theorem arrival_inj (l : List Order)
    (hnd : l.Pairwise (fun a b => a.arrival ≠ b.arrival))
    (a b : Nat) (ha : a < l.length) (hb : b < l.length)
    (h : (l.get ⟨a, ha⟩).arrival = (l.get ⟨b, hb⟩).arrival) : a = b := by
  rcases Nat.lt_trichotomy a b with hab | hab | hab
  · exact absurd h (List.pairwise_iff_getElem.mp hnd a b ha hb hab)
  · exact hab
  · exact absurd h.symm (List.pairwise_iff_getElem.mp hnd b a hb ha hab)

/-- Time priority at the loop level: if some order with the arrival
stamp of the earlier order `l[i]` survives the loop (possibly with
reduced quantity), then the later order `l[j]` survives untouched. -/
theorem runLoop_front_consumed (cond : Int → Bool) (mkT : Order → Int → Trade)
    (l : List Order) (r : Int)
    (hnd : l.Pairwise (fun a b => a.arrival ≠ b.arrival))
    (i j : Nat) (hi : i < l.length) (hj : j < l.length) (hij : i < j)
    (x' : Order) (hx' : x' ∈ (runLoop cond mkT l r).1)
    (ha : x'.arrival = (l.get ⟨i, hi⟩).arrival) :
    l.get ⟨j, hj⟩ ∈ (runLoop cond mkT l r).1 := by
  obtain ⟨k, hk | ⟨hklt, q, hk⟩⟩ := runLoop_normalForm cond mkT l r
  · rw [hk] at hx' ⊢
    obtain ⟨n, hn, hxn⟩ := List.mem_iff_getElem.mp hx'
    have hn' : k + n < l.length := by
      simp only [List.length_drop] at hn
      omega
    have hxa : (l.get ⟨k + n, hn'⟩).arrival = (l.get ⟨i, hi⟩).arrival := by
      rw [← ha, ← hxn]
      simp [List.getElem_drop]
    have hki : k + n = i := arrival_inj l hnd _ _ hn' hi hxa
    have hjk : k ≤ j := by omega
    rw [List.mem_iff_getElem]
    refine ⟨j - k, by simp only [List.length_drop]; omega, ?_⟩
    rw [List.getElem_drop]
    congr 1
    omega
  · rw [hk] at hx' ⊢
    have hmem : l.get ⟨j, hj⟩ ∈ l.drop (k + 1) → l.get ⟨j, hj⟩ ∈
        { l.get ⟨k, hklt⟩ with quantity := q } :: l.drop (k + 1) :=
      fun h => List.mem_cons_of_mem _ h
    have hdropmem : k + 1 ≤ j → l.get ⟨j, hj⟩ ∈ l.drop (k + 1) := by
      intro hkj
      rw [List.mem_iff_getElem]
      refine ⟨j - (k + 1), by simp only [List.length_drop]; omega, ?_⟩
      rw [List.getElem_drop]
      congr 1
      omega
    rcases List.mem_cons.mp hx' with rfl | hx'
    · have hxa : (l.get ⟨k, hklt⟩).arrival = (l.get ⟨i, hi⟩).arrival := by
        rw [← ha]
      have hki : k = i := arrival_inj l hnd _ _ hklt hi hxa
      exact hmem (hdropmem (by omega))
    · obtain ⟨n, hn, hxn⟩ := List.mem_iff_getElem.mp hx'
      have hn' : k + 1 + n < l.length := by
        simp only [List.length_drop] at hn
        omega
      have hxa : (l.get ⟨k + 1 + n, hn'⟩).arrival = (l.get ⟨i, hi⟩).arrival := by
        rw [← ha, ← hxn]
        simp [List.getElem_drop]
      have hki : k + 1 + n = i := arrival_inj l hnd _ _ hn' hi hxa
      exact hmem (hdropmem (by omega))

/-! ## Theorems: `_init_symbol_if_needed` and `on_order_received` -/

theorem init_next_arrival (ex : Exchange) (symbol : String) :
    (init_symbol_if_needed ex symbol).next_arrival = ex.next_arrival := by
  unfold init_symbol_if_needed
  cases h : ex.order_books symbol <;> simp

theorem init_books_ne (ex : Exchange) (symbol s : String) (h : s ≠ symbol) :
    (init_symbol_if_needed ex symbol).order_books s = ex.order_books s := by
  unfold init_symbol_if_needed
  cases hb : ex.order_books symbol with
  | none => simp [h]
  | some b => rfl

theorem init_books_self (ex : Exchange) (symbol : String) :
    (init_symbol_if_needed ex symbol).order_books symbol
      = some (((init_symbol_if_needed ex symbol).order_books symbol).getD ⟨[], []⟩) := by
  unfold init_symbol_if_needed
  cases hb : ex.order_books symbol with
  | none => simp
  | some b => simp [hb]

theorem init_books_cases (ex : Exchange) (symbol : String) :
    ((init_symbol_if_needed ex symbol).order_books symbol).getD ⟨[], []⟩
        = ⟨[], []⟩ ∧ ex.order_books symbol = none ∨
      ex.order_books symbol
        = some (((init_symbol_if_needed ex symbol).order_books symbol).getD ⟨[], []⟩) := by
  unfold init_symbol_if_needed
  cases hb : ex.order_books symbol with
  | none => left; simp
  | some b => right; simp [hb]

theorem sort_opposite_buy : sort_opposite "BUY" = stableSort priceLe := by
  funext l
  simp [sort_opposite]

theorem sort_opposite_other (side : String) (h : side ≠ "BUY") :
    sort_opposite side = stableSort priceGe := by
  funext l
  simp [sort_opposite, h]

theorem match_condition_buy_dc (myPrice : Int) :
    ∀ a b : Order, priceLe a b = true →
      match_condition "BUY" myPrice b.price = true →
      match_condition "BUY" myPrice a.price = true := by
  intro a b h1 h2
  unfold priceLe at h1
  unfold match_condition at h2 ⊢
  rw [if_pos rfl] at h2 ⊢
  simp only [decide_eq_true_eq] at h1 h2 ⊢
  omega

theorem match_condition_other_dc (side : String) (h : side ≠ "BUY") (myPrice : Int) :
    ∀ a b : Order, priceGe a b = true →
      match_condition side myPrice b.price = true →
      match_condition side myPrice a.price = true := by
  intro a b h1 h2
  unfold priceGe at h1
  unfold match_condition at h2 ⊢
  rw [if_neg h] at h2 ⊢
  simp only [ge_iff_le, decide_eq_true_eq] at h1 h2 ⊢
  omega

/-- Characterisation of `on_order_received` for a BUY aggressor whose
symbol's (possibly fresh) book has a price-sorted ask list: the result
is the reference loop `runLoop` against the sells, plus the
append-and-resort residual insertion into the buys. -/
theorem on_order_received_spec_buy (ex : Exchange) (o : Order) (hside : o.side = "BUY")
    (b : Book) (hb : ((init_symbol_if_needed ex o.symbol).order_books o.symbol).getD ⟨[], []⟩ = b)
    (hs : SortedB priceLe b.sell) (p : List Order × Int × List Trade)
    (hp : runLoop (match_condition o.side o.price) (trade_info o.side o.symbol o.username)
        b.sell o.quantity = p) :
    (on_order_received ex o).2 = p.2.2 ∧
    (on_order_received ex o).1.next_arrival = ex.next_arrival + 1 ∧
    ∀ s, (on_order_received ex o).1.order_books s =
      if s = o.symbol then
        some { buy := if 0 < p.2.1 then
                 stableSort priceGe (b.buy ++
                   [{ username := o.username, symbol := o.symbol, side := o.side,
                      price := o.price, quantity := p.2.1, arrival := ex.next_arrival }])
               else b.buy,
               sell := p.1 }
      else (init_symbol_if_needed ex o.symbol).order_books s := by
  have hrun : matchLoopRun (sort_opposite o.side) (match_condition o.side o.price)
      (trade_info o.side o.symbol o.username) ⟨b.sell, o.quantity, []⟩
      = ⟨p.1, p.2.1, p.2.2⟩ := by
    rw [hside, sort_opposite_buy]
    rw [matchLoopRun_eq_runLoop priceLe _ _ (match_condition_buy_dc o.price) b.sell hs]
    rw [← hside, hp]
  unfold on_order_received
  rw [hside] at hrun ⊢
  simp only [if_pos rfl, ite_true, eq_self_iff_true, hb, hrun, init_next_arrival]
  exact ⟨trivial, trivial, fun _ => trivial⟩

/-- Characterisation of `on_order_received` for any non-BUY side string
(the `else` branch of lines 72-79: treated as a sell): the loop runs
against the price-sorted bid list and the residual is resorted into the
ask list. -/
theorem on_order_received_spec_other (ex : Exchange) (o : Order) (hside : o.side ≠ "BUY")
    (b : Book) (hb : ((init_symbol_if_needed ex o.symbol).order_books o.symbol).getD ⟨[], []⟩ = b)
    (hs : SortedB priceGe b.buy) (p : List Order × Int × List Trade)
    (hp : runLoop (match_condition o.side o.price) (trade_info o.side o.symbol o.username)
        b.buy o.quantity = p) :
    (on_order_received ex o).2 = p.2.2 ∧
    (on_order_received ex o).1.next_arrival = ex.next_arrival + 1 ∧
    ∀ s, (on_order_received ex o).1.order_books s =
      if s = o.symbol then
        some { buy := p.1,
               sell := if 0 < p.2.1 then
                 stableSort priceLe (b.sell ++
                   [{ username := o.username, symbol := o.symbol, side := o.side,
                      price := o.price, quantity := p.2.1, arrival := ex.next_arrival }])
               else b.sell }
      else (init_symbol_if_needed ex o.symbol).order_books s := by
  have hrun : matchLoopRun (sort_opposite o.side) (match_condition o.side o.price)
      (trade_info o.side o.symbol o.username) ⟨b.buy, o.quantity, []⟩
      = ⟨p.1, p.2.1, p.2.2⟩ := by
    rw [sort_opposite_other o.side hside]
    rw [matchLoopRun_eq_runLoop priceGe _ _ (match_condition_other_dc o.side hside o.price) b.buy hs]
    rw [hp]
  unfold on_order_received
  simp only [if_neg hside, hb, hrun, init_next_arrival]
  exact ⟨trivial, trivial, fun _ => trivial⟩

/-! ## Theorems: the book invariants are preserved -/

theorem BookInv_empty (c : Nat) : BookInv c ⟨[], []⟩ := by
  simp [BookInv]

theorem BookInv_mono (c c' : Nat) (h : c ≤ c') (b : Book) (hb : BookInv c b) :
    BookInv c' b := by
  obtain ⟨h1, h2, h3, h4, h5, h6, h7⟩ := hb
  refine ⟨h1, h2, h3, h4, ?_, ?_, h7⟩
  · intro x hx
    exact ⟨by have := (h5 x hx).1; omega, (h5 x hx).2⟩
  · intro x hx
    exact ⟨by have := (h6 x hx).1; omega, (h6 x hx).2⟩

theorem ExInv_empty : ExInv emptyExchange := by
  intro S b h
  simp [emptyExchange] at h

theorem ExInv_init (ex : Exchange) (symbol : String) (h : ExInv ex) :
    ExInv (init_symbol_if_needed ex symbol) := by
  intro S b hb
  rw [init_next_arrival]
  unfold init_symbol_if_needed at hb
  cases hob : ex.order_books symbol with
  | some b0 =>
    rw [hob] at hb
    exact h S b hb
  | none =>
    rw [hob] at hb
    simp only at hb
    by_cases hS : S = symbol
    · rw [if_pos hS] at hb
      cases hb
      exact BookInv_empty _
    · rw [if_neg hS] at hb
      exact h S b hb

theorem askComp_iff (x y : Order) : askComp x y ↔ compO priceLe x y := by
  unfold askComp compO priceLe
  simp only [decide_eq_true_eq, decide_eq_false_iff_not]
  omega

theorem bidComp_iff (x y : Order) : bidComp x y ↔ compO priceGe x y := by
  unfold bidComp compO priceGe
  simp only [decide_eq_true_eq, decide_eq_false_iff_not]
  omega

theorem pairwise_insertTail_of (R : Order → Order → Prop)
    (le : Order → Order → Bool) (a : Order) :
    ∀ l : List Order, l.Pairwise R → (∀ x ∈ l, R x a ∧ R a x) →
      (insertTail le a l).Pairwise R := by
  intro l hl ha
  induction l with
  | nil => simp [insertTail]
  | cons b t ih =>
    rw [List.pairwise_cons] at hl
    simp only [insertTail]
    by_cases h : le b a = true
    · rw [if_pos h]
      rw [List.pairwise_cons]
      refine ⟨?_, ih hl.2 (fun x hx => ha x (List.mem_cons_of_mem b hx))⟩
      intro x hx
      rcases (mem_insertTail le a x t).mp hx with rfl | hx
      · exact (ha b (by simp)).1
      · exact hl.1 x hx
    · rw [if_neg h]
      rw [List.pairwise_cons]
      refine ⟨?_, List.pairwise_cons.mpr hl⟩
      intro x hx
      rcases List.mem_cons.mp hx with rfl | hx
      · exact (ha x (by simp)).2
      · exact (ha x (List.mem_cons_of_mem b hx)).2

/-- Generic invariant preservation for one `on_order_received` book
update: run the loop against the opposite side and, if the aggressor is
not fully filled, stably re-sort its residual into its own side.  `le`
is the opposite side's price key, `leS` its own side's, `P` the
no-cross relation between own-side and opposite-side prices. -/
theorem loop_then_insert_inv
    (le leS : Order → Order → Bool) (cond : Int → Bool) (mkT : Order → Int → Trade)
    (P : Int → Int → Prop) (myPrice : Int) (c : Nat)
    (hleq : ∀ (x : Order) (q : Int) (y : Order),
      le { x with quantity := q } y = le x y ∧ le y { x with quantity := q } = le y x)
    (hStot : ∀ a b : Order, leS a b = true ∨ leS b a = true)
    (hStrans : ∀ a b c' : Order, leS a b = true → leS b c' = true → leS a c' = true)
    (hSpe : ∀ x y : Order, x.price = y.price → leS x y = true)
    (hSps : ∀ x y : Order, leS x y = true → leS y x = true → x.price = y.price)
    (hpe : ∀ x y : Order, x.price = y.price → le x y = true)
    (hdc : ∀ a b : Order, le a b = true → cond b.price = true → cond a.price = true)
    (hcondP : ∀ yp : Int, cond yp = false → P myPrice yp)
    (opp same : List Order) (r0 : Int)
    (hoppC : opp.Pairwise (compO le)) (hsameC : same.Pairwise (compO leS))
    (hoppNe : opp.Pairwise (fun x y => x.arrival ≠ y.arrival))
    (hsameNe : same.Pairwise (fun x y => x.arrival ≠ y.arrival))
    (hoppB : ∀ x ∈ opp, x.arrival < c ∧ 0 < x.quantity)
    (hsameB : ∀ x ∈ same, x.arrival < c ∧ 0 < x.quantity)
    (hcf : ∀ x ∈ same, ∀ y ∈ opp, P x.price y.price)
    (res : Order) (hresp : res.price = myPrice) (hresa : res.arrival = c)
    (hresq : res.quantity = (runLoop cond mkT opp r0).2.1) :
    ((runLoop cond mkT opp r0).1).Pairwise (compO le) ∧
    ((runLoop cond mkT opp r0).1).Pairwise (fun x y => x.arrival ≠ y.arrival) ∧
    (∀ x ∈ (runLoop cond mkT opp r0).1, x.arrival < c + 1 ∧ 0 < x.quantity) ∧
    (if 0 < (runLoop cond mkT opp r0).2.1
       then stableSort leS (same ++ [res]) else same).Pairwise (compO leS) ∧
    (if 0 < (runLoop cond mkT opp r0).2.1
       then stableSort leS (same ++ [res]) else same).Pairwise
        (fun x y => x.arrival ≠ y.arrival) ∧
    (∀ x ∈ (if 0 < (runLoop cond mkT opp r0).2.1
       then stableSort leS (same ++ [res]) else same), x.arrival < c + 1 ∧ 0 < x.quantity) ∧
    (∀ x ∈ (if 0 < (runLoop cond mkT opp r0).2.1
       then stableSort leS (same ++ [res]) else same),
      ∀ y ∈ (runLoop cond mkT opp r0).1, P x.price y.price) := by
  have hOsort : SortedB le opp := sortedB_of_pairwise_compO le hpe hoppC
  have hqbC : ∀ (x y : Order) (q : Int), compO le x y → compO le { x with quantity := q } y := by
    intro x y q h
    rcases h with ⟨h1, h2⟩ | ⟨h1, h2⟩
    · exact Or.inl ⟨(hleq x q y).1.trans h1, (hleq x q y).2.trans h2⟩
    · exact Or.inr ⟨h1, h2⟩
  have hp1 := runLoop_pairwise cond mkT (compO le) hqbC opp r0 hoppC
  have hp2 := runLoop_pairwise cond mkT (fun x y => x.arrival ≠ y.arrival)
    (fun _ _ _ h => h) opp r0 hoppNe
  have hp3 : ∀ x ∈ (runLoop cond mkT opp r0).1, x.arrival < c + 1 ∧ 0 < x.quantity := by
    intro x hx
    obtain ⟨y, hy, q, rfl⟩ := runLoop_mem cond mkT opp r0 x hx
    refine ⟨?_, runLoop_pos cond mkT opp r0 (fun z hz => (hoppB z hz).2) _ hx⟩
    have := (hoppB y hy).1
    show y.arrival < c + 1
    omega
  have hyprice : ∀ y ∈ (runLoop cond mkT opp r0).1, ∃ y0 ∈ opp, y.price = y0.price := by
    intro y hy
    obtain ⟨y0, hy0, q, rfl⟩ := runLoop_mem cond mkT opp r0 y hy
    exact ⟨y0, hy0, rfl⟩
  by_cases hres0 : 0 < (runLoop cond mkT opp r0).2.1
  · simp only [if_pos hres0]
    have hSsort : SortedB leS same := sortedB_of_pairwise_compO leS hSpe hsameC
    rw [stableSort_append_single leS hStrans res same hSsort]
    have hfresh : ∀ x ∈ same, x.arrival < res.arrival := by
      intro x hx
      rw [hresa]
      exact (hsameB x hx).1
    refine ⟨hp1, hp2, hp3, ?_, ?_, ?_, ?_⟩
    · exact pairwise_compO_insertTail leS hStot hStrans hSpe hSps res same hsameC hfresh
    · refine pairwise_insertTail_of _ leS res same hsameNe ?_
      intro x hx
      have := hfresh x hx
      constructor <;> omega
    · intro x hx
      rcases (mem_insertTail leS res x same).mp hx with rfl | hx
      · exact ⟨by omega, by rw [hresq]; exact hres0⟩
      · have := hsameB x hx
        exact ⟨by omega, this.2⟩
    · intro x hx y hy
      rcases (mem_insertTail leS res x same).mp hx with rfl | hx
      · rw [hresp]
        exact hcondP y.price (runLoop_exit le cond mkT hdc opp r0 hOsort hres0 y hy)
      · obtain ⟨y0, hy0, hyp⟩ := hyprice y hy
        rw [hyp]
        exact hcf x hx y0 hy0
  · simp only [if_neg hres0]
    refine ⟨hp1, hp2, hp3, hsameC, hsameNe, ?_, ?_⟩
    · intro x hx
      have := hsameB x hx
      exact ⟨by omega, this.2⟩
    · intro x hx y hy
      obtain ⟨y0, hy0, hyp⟩ := hyprice y hy
      rw [hyp]
      exact hcf x hx y0 hy0

/-- Processing any single order preserves the book invariants. -/
theorem ExInv_step (ex : Exchange) (o : Order) (hex : ExInv ex) :
    ExInv (on_order_received ex o).1 := by
  obtain ⟨b, hb⟩ : ∃ b, ((init_symbol_if_needed ex o.symbol).order_books o.symbol).getD ⟨[], []⟩
      = b := ⟨_, rfl⟩
  have hbinv : BookInv ex.next_arrival b := by
    rcases init_books_cases ex o.symbol with ⟨he, _⟩ | hsome
    · rw [← hb, he]
      exact BookInv_empty _
    · rw [hb] at hsome
      exact hex o.symbol b hsome
  have hinv1 : ExInv (init_symbol_if_needed ex o.symbol) := ExInv_init ex o.symbol hex
  obtain ⟨hbuyC, hsellC, hbuyNe, hsellNe, hbuyB, hsellB, hcf⟩ := hbinv
  by_cases hside : o.side = "BUY"
  · -- BUY aggressor: loop over the asks, residual into the bids
    have hsellsort : SortedB priceLe b.sell :=
      sortedB_of_pairwise_compO priceLe priceLe_of_eq
        (hsellC.imp (fun h => (askComp_iff _ _).mp h))
    obtain ⟨htr, hna, hbooks⟩ := on_order_received_spec_buy ex o hside b hb hsellsort
      (runLoop (match_condition o.side o.price) (trade_info o.side o.symbol o.username)
        b.sell o.quantity) rfl
    obtain ⟨c1, c2, c3, c4, c5, c6, c7⟩ :=
      loop_then_insert_inv priceLe priceGe (match_condition o.side o.price)
        (trade_info o.side o.symbol o.username) (fun xp yp => xp < yp) o.price ex.next_arrival
        (fun _ _ _ => ⟨rfl, rfl⟩) priceGe_total priceGe_trans priceGe_of_eq priceGe_antisymm
        priceLe_of_eq (hside ▸ match_condition_buy_dc o.price)
        (by
          intro yp hyp
          rw [hside] at hyp
          unfold match_condition at hyp
          rw [if_pos rfl] at hyp
          simp only [decide_eq_false_iff_not] at hyp
          omega)
        b.sell b.buy o.quantity
        (hsellC.imp (fun h => (askComp_iff _ _).mp h))
        (hbuyC.imp (fun h => (bidComp_iff _ _).mp h))
        hsellNe hbuyNe hsellB hbuyB
        (fun x hx y hy => hcf x hx y hy)
        { username := o.username, symbol := o.symbol, side := o.side,
          price := o.price, quantity := (runLoop (match_condition o.side o.price)
            (trade_info o.side o.symbol o.username) b.sell o.quantity).2.1,
          arrival := ex.next_arrival }
        rfl rfl rfl
    intro S bS hbS
    rw [hna]
    by_cases hS : S = o.symbol
    · rw [hbooks S, if_pos hS] at hbS
      have hbS' := Option.some.inj hbS
      rw [← hbS']
      exact ⟨c4.imp (fun h => (bidComp_iff _ _).mpr h),
        c1.imp (fun h => (askComp_iff _ _).mpr h),
        c5, c2, c6, c3, fun x hx y hy => c7 x hx y hy⟩
    · rw [hbooks S, if_neg hS] at hbS
      have h0 := hinv1 S bS hbS
      rw [init_next_arrival] at h0
      exact BookInv_mono _ _ (by omega) _ h0
  · -- non-BUY aggressor: loop over the bids, residual into the asks
    have hbuysort : SortedB priceGe b.buy :=
      sortedB_of_pairwise_compO priceGe priceGe_of_eq
        (hbuyC.imp (fun h => (bidComp_iff _ _).mp h))
    obtain ⟨htr, hna, hbooks⟩ := on_order_received_spec_other ex o hside b hb hbuysort
      (runLoop (match_condition o.side o.price) (trade_info o.side o.symbol o.username)
        b.buy o.quantity) rfl
    obtain ⟨c1, c2, c3, c4, c5, c6, c7⟩ :=
      loop_then_insert_inv priceGe priceLe (match_condition o.side o.price)
        (trade_info o.side o.symbol o.username) (fun xp yp => yp < xp) o.price ex.next_arrival
        (fun _ _ _ => ⟨rfl, rfl⟩) priceLe_total priceLe_trans priceLe_of_eq priceLe_antisymm
        priceGe_of_eq (match_condition_other_dc o.side hside o.price)
        (by
          intro yp hyp
          unfold match_condition at hyp
          rw [if_neg hside] at hyp
          simp only [ge_iff_le, decide_eq_false_iff_not] at hyp
          omega)
        b.buy b.sell o.quantity
        (hbuyC.imp (fun h => (bidComp_iff _ _).mp h))
        (hsellC.imp (fun h => (askComp_iff _ _).mp h))
        hbuyNe hsellNe hbuyB hsellB
        (fun x hx y hy => hcf y hy x hx)
        { username := o.username, symbol := o.symbol, side := o.side,
          price := o.price, quantity := (runLoop (match_condition o.side o.price)
            (trade_info o.side o.symbol o.username) b.buy o.quantity).2.1,
          arrival := ex.next_arrival }
        rfl rfl rfl
    intro S bS hbS
    rw [hna]
    by_cases hS : S = o.symbol
    · rw [hbooks S, if_pos hS] at hbS
      have hbS' := Option.some.inj hbS
      rw [← hbS']
      exact ⟨c1.imp (fun h => (bidComp_iff _ _).mpr h),
        c4.imp (fun h => (askComp_iff _ _).mpr h),
        c2, c5, c3, c6, fun x hx y hy => c7 y hy x hx⟩
    · rw [hbooks S, if_neg hS] at hbS
      have h0 := hinv1 S bS hbS
      rw [init_next_arrival] at h0
      exact BookInv_mono _ _ (by omega) _ h0

/-- Every reachable exchange state satisfies the book invariants. -/
theorem reachable_ExInv (ex : Exchange) (h : Reachable ex) : ExInv ex := by
  induction h with
  | empty => exact ExInv_empty
  | step ex' o _ ih => exact ExInv_step ex' o ih

/-! ## Supporting lemmas for the claims -/

theorem reachable_processAll (ex : Exchange) (h : Reachable ex) :
    ∀ os : List Order, Reachable (processAll ex os).1 := by
  intro os
  induction os generalizing ex with
  | nil => exact h
  | cons o rest ih => exact ih (on_order_received ex o).1 (Reachable.step ex o h)

theorem reachable_init_BookInv (ex : Exchange) (hre : Reachable ex) (symbol : String) :
    BookInv ex.next_arrival
      (((init_symbol_if_needed ex symbol).order_books symbol).getD ⟨[], []⟩) := by
  rcases init_books_cases ex symbol with ⟨he, _⟩ | hsome
  · rw [he]
    exact BookInv_empty _
  · exact reachable_ExInv ex hre symbol _ hsome

theorem matchLoopRun_zero (sortOpp : List Order → List Order) (cond : Int → Bool)
    (mkT : Order → Int → Trade) (l : List Order) (ts : List Trade) :
    matchLoopRun sortOpp cond mkT ⟨l, 0, ts⟩ = ⟨l, 0, ts⟩ := by
  unfold matchLoopRun
  have h2 : (⟨l, 0, ts⟩ : LoopState).opposite.length + 2
      = ((⟨l, 0, ts⟩ : LoopState).opposite.length + 1) + 1 := rfl
  rw [h2, matchLoopFuel_of_nonpos _ _ _ _ _ (le_refl 0)]
  rfl

theorem runLoop_trades_length (cond : Int → Bool) (mkT : Order → Int → Trade) :
    ∀ (l : List Order) (r : Int), (runLoop cond mkT l r).2.2.length ≤ l.length + 1 := by
  intro l
  induction l with
  | nil => intro r; simp [runLoop]
  | cons o t ih =>
    intro r
    by_cases hr : 0 < r
    · by_cases hc : cond o.price = true
      · by_cases he : o.quantity = r
        · rw [runLoop, if_pos hr, if_pos hc, if_pos he]
          simp
        · by_cases hgt : o.quantity > r
          · rw [runLoop, if_pos hr, if_pos hc, if_neg he, if_pos hgt]
            simp
          · rw [runLoop, if_pos hr, if_pos hc, if_neg he, if_neg hgt]
            have := ih (r - o.quantity)
            simp only [List.length_cons]
            omega
      · rw [runLoop, if_pos hr, if_neg hc]
        simp
    · rw [runLoop, if_neg hr]
      simp

theorem sumQty_nonneg (l : List Order) (h : ∀ x ∈ l, 0 < x.quantity) : 0 ≤ sumQty l := by
  induction l with
  | nil => simp [sumQty]
  | cons o t ih =>
    have h1 := h o (by simp)
    have h2 := ih (fun x hx => h x (List.mem_cons_of_mem o hx))
    simp only [sumQty, List.map_cons, List.sum_cons] at h2 ⊢
    omega

theorem tradedQty_append (S : String) (t1 t2 : List Trade) :
    tradedQty S (t1 ++ t2) = tradedQty S t1 + tradedQty S t2 := by
  simp [tradedQty, List.filter_append]

theorem tradedQty_of_symbol (S A : String) (ts : List Trade) (h : ∀ t ∈ ts, t.symbol = A) :
    tradedQty S ts = if S = A then sumTQty ts else 0 := by
  induction ts with
  | nil => simp [tradedQty, sumTQty]
  | cons t rest ih =>
    have hA := h t (by simp)
    have ih' := ih (fun u hu => h u (List.mem_cons_of_mem t hu))
    simp only [tradedQty, sumTQty, List.filter_cons, List.map_cons, List.sum_cons] at ih' ⊢
    by_cases hS : S = A
    · rw [if_pos hS] at ih' ⊢
      have hbeq : (t.symbol == S) = true := by
        rw [hA, hS]
        simp
      rw [hbeq]
      simp only [if_true, List.map_cons, List.sum_cons]
      omega
    · rw [if_neg hS] at ih' ⊢
      have hbeq : (t.symbol == S) = false := by
        rw [hA]
        simp only [beq_eq_false_iff_ne, ne_eq]
        intro hc
        exact hS hc.symm
      rw [hbeq]
      simpa using ih'

theorem submittedQty_cons (S : String) (bs : Bool) (o : Order) (os : List Order) :
    submittedQty S bs (o :: os) = submittedQty S bs [o] + submittedQty S bs os := by
  simp only [submittedQty, List.filter_cons, List.filter_nil]
  by_cases hc : (o.symbol == S && ((o.side == "BUY") == bs)) = true
  · rw [hc]
    simp
  · rw [Bool.not_eq_true] at hc
    rw [hc]
    simp

theorem restingQty_init (ex : Exchange) (sym S : String) (bs : Bool) :
    restingQty (init_symbol_if_needed ex sym) S bs = restingQty ex S bs := by
  unfold restingQty
  by_cases hS : S = sym
  · subst hS
    unfold init_symbol_if_needed
    cases hob : ex.order_books S with
    | none => simp [sumQty]
    | some b => simp [hob]
  · rw [init_books_ne ex sym S hS]

theorem restingQty_eq_book (ex : Exchange) (sym : String) (bs : Bool) :
    restingQty ex sym bs
      = sumQty (if bs then (((init_symbol_if_needed ex sym).order_books sym).getD ⟨[], []⟩).buy
          else (((init_symbol_if_needed ex sym).order_books sym).getD ⟨[], []⟩).sell) := by
  rw [← restingQty_init ex sym sym bs]
  unfold restingQty
  rw [init_books_self ex sym]
  rfl

theorem stableInsert_map_comm (le : Order → Order → Bool) (f : Order → Order)
    (hf : ∀ a b : Order, le (f a) (f b) = le a b) (a : Order) :
    ∀ l : List Order, stableInsert le (f a) (l.map f) = (stableInsert le a l).map f := by
  intro l
  induction l with
  | nil => rfl
  | cons b t ih =>
    simp only [List.map_cons, stableInsert, hf a b]
    by_cases h : le a b = true
    · rw [if_pos h, if_pos h]
      rfl
    · rw [if_neg h, if_neg h]
      rw [List.map_cons, ih]

theorem stableSort_map_comm (le : Order → Order → Bool) (f : Order → Order)
    (hf : ∀ a b : Order, le (f a) (f b) = le a b) :
    ∀ l : List Order, stableSort le (l.map f) = (stableSort le l).map f := by
  intro l
  induction l with
  | nil => rfl
  | cons b t ih =>
    simp only [List.map_cons, stableSort, ih]
    exact stableInsert_map_comm le f hf b (stableSort le t)

theorem match_condition_eq_sell (side : String) (h : side ≠ "BUY") (p : Int) :
    match_condition side p = match_condition "SELL" p := by
  funext x
  unfold match_condition
  rw [if_neg h, if_neg (by decide)]

theorem trade_info_eq_sell (side : String) (h : side ≠ "BUY") (sym user : String) :
    trade_info side sym user = trade_info "SELL" sym user := by
  funext opp qty
  simp [trade_info, h]

theorem on_order_received_books_symbol (ex : Exchange) (o : Order) :
    ∃ bk, (on_order_received ex o).1.order_books o.symbol = some bk := by
  unfold on_order_received
  exact ⟨_, if_pos rfl⟩

/-! ## The claims -/

/-- C2: in every state reachable from the empty registry by processing
orders, each symbol's buy list is sorted by price descending and its
sell list by price ascending, with FIFO (arrival-stamp) order at equal
prices — i.e. both lists are sorted by the composite price-time key, so
no two equal-priced resting orders are ever reordered relative to their
arrival order. -/
theorem c2_book_ordering (ex : Exchange) (hre : Reachable ex) (S : String) (b : Book)
    (hb : ex.order_books S = some b) :
    b.buy.Pairwise (fun x y => y.price < x.price ∨ (x.price = y.price ∧ x.arrival < y.arrival)) ∧
    b.sell.Pairwise (fun x y => x.price < y.price ∨ (x.price = y.price ∧ x.arrival < y.arrival)) := by
  obtain ⟨h1, h2, _⟩ := reachable_ExInv ex hre S b hb
  exact ⟨h1, h2⟩

/-- C4: in every reachable state, between calls to `on_order_received`,
no book is crossed: every resting buy price is strictly below every
resting sell price of the same symbol (so either one side is empty or
best bid < best ask). -/
theorem c4_no_cross (ex : Exchange) (hre : Reachable ex) (S : String) (b : Book)
    (hb : ex.order_books S = some b) :
    ∀ x ∈ b.buy, ∀ y ∈ b.sell, x.price < y.price :=
  (reachable_ExInv ex hre S b hb).2.2.2.2.2.2

/-- C8: processing an order touches at most the book of its own symbol:
every other symbol's registry entry is returned unchanged, and no
registry entry is ever removed (an existing symbol still maps to a
book afterwards). -/
theorem c8_frame (ex : Exchange) (o : Order) :
    (∀ s, s ≠ o.symbol → (on_order_received ex o).1.order_books s = ex.order_books s) ∧
    (∀ s bx, ex.order_books s = some bx →
      ∃ bx', (on_order_received ex o).1.order_books s = some bx') := by
  have hbk : ∀ s, s ≠ o.symbol →
      (on_order_received ex o).1.order_books s = ex.order_books s := by
    intro s hs
    have h1 : (on_order_received ex o).1.order_books s
        = (init_symbol_if_needed ex o.symbol).order_books s := by
      unfold on_order_received
      simp only [if_neg hs]
    rw [h1, init_books_ne ex o.symbol s hs]
  refine ⟨hbk, ?_⟩
  intro s bx hbx
  by_cases hs : s = o.symbol
  · subst hs
    exact on_order_received_books_symbol ex o
  · rw [hbk s hs]
    exact ⟨bx, hbx⟩

/-- C1: every trade emitted while processing an order takes its price
from an order that was resting on the opposite side of the (reachable)
book when the aggressor arrived — the maker's price, never the
aggressor's — and carries the maker's username on the resting side and
the aggressor's username on the aggressing side. -/
theorem c1_maker_price (ex : Exchange) (hre : Reachable ex) (o : Order) (t : Trade)
    (ht : t ∈ (on_order_received ex o).2) :
    ∃ m ∈ (if o.side = "BUY"
        then (((init_symbol_if_needed ex o.symbol).order_books o.symbol).getD ⟨[], []⟩).sell
        else (((init_symbol_if_needed ex o.symbol).order_books o.symbol).getD ⟨[], []⟩).buy),
      t.price = m.price ∧
      (if o.side = "BUY" then t.buyer = o.username ∧ t.seller = m.username
        else t.seller = o.username ∧ t.buyer = m.username) := by
  obtain ⟨hbuyC, hsellC, _, _, _, _, _⟩ := reachable_init_BookInv ex hre o.symbol
  by_cases hside : o.side = "BUY"
  · have hsort : SortedB priceLe
        (((init_symbol_if_needed ex o.symbol).order_books o.symbol).getD ⟨[], []⟩).sell :=
      sortedB_of_pairwise_compO priceLe priceLe_of_eq
        (hsellC.imp (fun h => (askComp_iff _ _).mp h))
    obtain ⟨htr, _, _⟩ := on_order_received_spec_buy ex o hside _ rfl hsort _ rfl
    rw [htr] at ht
    obtain ⟨m, hm, q, rfl, _⟩ := runLoop_trades _ _ _ _ _ ht
    rw [if_pos hside]
    refine ⟨m, hm, ?_, ?_⟩
    · rfl
    · rw [if_pos hside]
      constructor
      · show (if o.side = "BUY" then o.username else m.username) = o.username
        rw [if_pos hside]
      · show (if o.side = "BUY" then m.username else o.username) = m.username
        rw [if_pos hside]
  · have hsort : SortedB priceGe
        (((init_symbol_if_needed ex o.symbol).order_books o.symbol).getD ⟨[], []⟩).buy :=
      sortedB_of_pairwise_compO priceGe priceGe_of_eq
        (hbuyC.imp (fun h => (bidComp_iff _ _).mp h))
    obtain ⟨htr, _, _⟩ := on_order_received_spec_other ex o hside _ rfl hsort _ rfl
    rw [htr] at ht
    obtain ⟨m, hm, q, rfl, _⟩ := runLoop_trades _ _ _ _ _ ht
    rw [if_neg hside]
    refine ⟨m, hm, ?_, ?_⟩
    · rfl
    · rw [if_neg hside]
      constructor
      · show (if o.side = "BUY" then m.username else o.username) = o.username
        rw [if_neg hside]
      · show (if o.side = "BUY" then o.username else m.username) = m.username
        rw [if_neg hside]

/-- C7: for a valid order against a reachable book, the matching loop
terminates: an iteration budget of `length + 2` always reaches a normal
loop exit (the fuel is never exhausted), and the returned trade list is
finite, of length at most `length + 1`.  As a Lean function `process`
is total, so it cannot raise. -/
theorem c7_terminating (ex : Exchange) (hre : Reachable ex) (o : Order)
    (hq : 0 < o.quantity) (hp : 0 < o.price) (hs : o.side = "BUY" ∨ o.side = "SELL") :
    (∃ s', matchLoopFuel (sort_opposite o.side) (match_condition o.side o.price)
        (trade_info o.side o.symbol o.username)
        ((if o.side = "BUY"
            then (((init_symbol_if_needed ex o.symbol).order_books o.symbol).getD ⟨[], []⟩).sell
            else (((init_symbol_if_needed ex o.symbol).order_books o.symbol).getD ⟨[], []⟩).buy).length
          + 2)
        ⟨(if o.side = "BUY"
            then (((init_symbol_if_needed ex o.symbol).order_books o.symbol).getD ⟨[], []⟩).sell
            else (((init_symbol_if_needed ex o.symbol).order_books o.symbol).getD ⟨[], []⟩).buy),
          o.quantity, []⟩ = some s') ∧
    (on_order_received ex o).2.length
      ≤ (if o.side = "BUY"
          then (((init_symbol_if_needed ex o.symbol).order_books o.symbol).getD ⟨[], []⟩).sell
          else (((init_symbol_if_needed ex o.symbol).order_books o.symbol).getD ⟨[], []⟩).buy).length
        + 1 := by
  obtain ⟨hbuyC, hsellC, _, _, _, _, _⟩ := reachable_init_BookInv ex hre o.symbol
  by_cases hside : o.side = "BUY"
  · rw [if_pos hside] at *
    constructor
    · rw [hside, sort_opposite_buy]
      exact matchLoopFuel_isSome priceLe _ _ _ _ (le_refl _)
    · have hsort : SortedB priceLe
          (((init_symbol_if_needed ex o.symbol).order_books o.symbol).getD ⟨[], []⟩).sell :=
        sortedB_of_pairwise_compO priceLe priceLe_of_eq
          (hsellC.imp (fun h => (askComp_iff _ _).mp h))
      obtain ⟨htr, _, _⟩ := on_order_received_spec_buy ex o hside _ rfl hsort _ rfl
      rw [htr]
      exact runLoop_trades_length _ _ _ _
  · rw [if_neg hside] at *
    constructor
    · rw [sort_opposite_other o.side hside]
      exact matchLoopFuel_isSome priceGe _ _ _ _ (le_refl _)
    · have hsort : SortedB priceGe
          (((init_symbol_if_needed ex o.symbol).order_books o.symbol).getD ⟨[], []⟩).buy :=
        sortedB_of_pairwise_compO priceGe priceGe_of_eq
          (hbuyC.imp (fun h => (bidComp_iff _ _).mp h))
      obtain ⟨htr, _, _⟩ := on_order_received_spec_other ex o hside _ rfl hsort _ rfl
      rw [htr]
      exact runLoop_trades_length _ _ _ _

theorem mem_indices_of_comp (l : List Order) (R : Order → Order → Prop)
    (hpair : l.Pairwise R)
    (hRa : ∀ u v : Order, R u v → u.price = v.price → u.arrival < v.arrival)
    (x y : Order) (hx : x ∈ l) (hy : y ∈ l)
    (hpeq : x.price = y.price) (harr : x.arrival < y.arrival) :
    ∃ (i j : Nat) (hi : i < l.length) (hj : j < l.length),
      i < j ∧ l.get ⟨i, hi⟩ = x ∧ l.get ⟨j, hj⟩ = y := by
  obtain ⟨i, hi, hxi⟩ := List.mem_iff_getElem.mp hx
  obtain ⟨j, hj, hyj⟩ := List.mem_iff_getElem.mp hy
  have hget : l.get ⟨i, hi⟩ = x := by
    rw [List.get_eq_getElem]
    exact hxi
  have hget' : l.get ⟨j, hj⟩ = y := by
    rw [List.get_eq_getElem]
    exact hyj
  refine ⟨i, j, hi, hj, ?_, hget, hget'⟩
  rcases Nat.lt_trichotomy i j with h | h | h
  · exact h
  · exfalso
    subst h
    have hxy : x = y := by rw [← hxi, hyj]
    rw [hxy] at harr
    omega
  · exfalso
    have hR := List.pairwise_iff_getElem.mp hpair j i hj hi h
    rw [hxi, hyj] at hR
    have := hRa y x hR hpeq.symm
    omega

/-- C5: time priority at equal prices.  Given a reachable state and a
processed order, consider two orders `x`, `y` resting on the opposite
side at the same price with `x` arrived earlier.  If any remnant of `x`
(identified by its arrival stamp, possibly with reduced quantity) is
still resting afterwards, then `y` is still resting, untouched: the
earlier order is always matched and depleted before the later one. -/
theorem c5_time_priority (ex : Exchange) (hre : Reachable ex) (o : Order) (x y x' : Order)
    (hx : x ∈ (if o.side = "BUY"
        then (((init_symbol_if_needed ex o.symbol).order_books o.symbol).getD ⟨[], []⟩).sell
        else (((init_symbol_if_needed ex o.symbol).order_books o.symbol).getD ⟨[], []⟩).buy))
    (hy : y ∈ (if o.side = "BUY"
        then (((init_symbol_if_needed ex o.symbol).order_books o.symbol).getD ⟨[], []⟩).sell
        else (((init_symbol_if_needed ex o.symbol).order_books o.symbol).getD ⟨[], []⟩).buy))
    (hpeq : x.price = y.price) (harr : x.arrival < y.arrival)
    (hx' : x' ∈ (if o.side = "BUY"
        then (((on_order_received ex o).1.order_books o.symbol).getD ⟨[], []⟩).sell
        else (((on_order_received ex o).1.order_books o.symbol).getD ⟨[], []⟩).buy))
    (ha : x'.arrival = x.arrival) :
    y ∈ (if o.side = "BUY"
        then (((on_order_received ex o).1.order_books o.symbol).getD ⟨[], []⟩).sell
        else (((on_order_received ex o).1.order_books o.symbol).getD ⟨[], []⟩).buy) := by
  obtain ⟨hbuyC, hsellC, hbuyNe, hsellNe, _, _, _⟩ := reachable_init_BookInv ex hre o.symbol
  by_cases hside : o.side = "BUY"
  · rw [if_pos hside] at hx hy hx' ⊢
    have hsort : SortedB priceLe
        (((init_symbol_if_needed ex o.symbol).order_books o.symbol).getD ⟨[], []⟩).sell :=
      sortedB_of_pairwise_compO priceLe priceLe_of_eq
        (hsellC.imp (fun h => (askComp_iff _ _).mp h))
    obtain ⟨_, _, hbooks⟩ := on_order_received_spec_buy ex o hside _ rfl hsort _ rfl
    have hpost : (((on_order_received ex o).1.order_books o.symbol).getD ⟨[], []⟩).sell
        = (runLoop (match_condition o.side o.price) (trade_info o.side o.symbol o.username)
            (((init_symbol_if_needed ex o.symbol).order_books o.symbol).getD ⟨[], []⟩).sell
            o.quantity).1 := by
      rw [hbooks o.symbol, if_pos rfl]
      rfl
    rw [hpost] at hx' ⊢
    obtain ⟨i, j, hi, hj, hij, hxi, hyj⟩ :=
      mem_indices_of_comp _ askComp hsellC
        (by
          intro u v hR hpe
          rcases hR with h | ⟨_, h⟩
          · omega
          · exact h)
        x y hx hy hpeq harr
    rw [← hyj]
    refine runLoop_front_consumed _ _ _ _ hsellNe i j hi hj hij x' hx' ?_
    rw [hxi, ha]
  · rw [if_neg hside] at hx hy hx' ⊢
    have hsort : SortedB priceGe
        (((init_symbol_if_needed ex o.symbol).order_books o.symbol).getD ⟨[], []⟩).buy :=
      sortedB_of_pairwise_compO priceGe priceGe_of_eq
        (hbuyC.imp (fun h => (bidComp_iff _ _).mp h))
    obtain ⟨_, _, hbooks⟩ := on_order_received_spec_other ex o hside _ rfl hsort _ rfl
    have hpost : (((on_order_received ex o).1.order_books o.symbol).getD ⟨[], []⟩).buy
        = (runLoop (match_condition o.side o.price) (trade_info o.side o.symbol o.username)
            (((init_symbol_if_needed ex o.symbol).order_books o.symbol).getD ⟨[], []⟩).buy
            o.quantity).1 := by
      rw [hbooks o.symbol, if_pos rfl]
      rfl
    rw [hpost] at hx' ⊢
    obtain ⟨i, j, hi, hj, hij, hxi, hyj⟩ :=
      mem_indices_of_comp _ bidComp hbuyC
        (by
          intro u v hR hpe
          rcases hR with h | ⟨_, h⟩
          · omega
          · exact h)
        x y hx hy hpeq harr
    rw [← hyj]
    refine runLoop_front_consumed _ _ _ _ hbuyNe i j hi hj hij x' hx' ?_
    rw [hxi, ha]

/-- C6: residual handling.  Let `r` be the order's quantity minus the
total quantity it traded (the loop's final `remaining_qty`).  If `r` is
zero the aggressor's own side of the book is unchanged as a multiset
(no entry is inserted); if `r > 0` exactly one residual order is
inserted there, carrying the aggressor's username, side, symbol and
price, quantity `r`, and the fresh arrival stamp. -/
theorem c6_residual (ex : Exchange) (hre : Reachable ex) (o : Order) (hv : ValidOrder o) :
    (if o.side = "BUY"
      then (((on_order_received ex o).1.order_books o.symbol).getD ⟨[], []⟩).buy
      else (((on_order_received ex o).1.order_books o.symbol).getD ⟨[], []⟩).sell).Perm
    (if 0 < o.quantity - sumTQty (on_order_received ex o).2
      then { username := o.username, side := o.side, symbol := o.symbol, price := o.price,
             quantity := o.quantity - sumTQty (on_order_received ex o).2,
             arrival := ex.next_arrival }
          :: (if o.side = "BUY"
            then (((init_symbol_if_needed ex o.symbol).order_books o.symbol).getD ⟨[], []⟩).buy
            else (((init_symbol_if_needed ex o.symbol).order_books o.symbol).getD ⟨[], []⟩).sell)
      else (if o.side = "BUY"
        then (((init_symbol_if_needed ex o.symbol).order_books o.symbol).getD ⟨[], []⟩).buy
        else (((init_symbol_if_needed ex o.symbol).order_books o.symbol).getD ⟨[], []⟩).sell)) := by
  obtain ⟨hbuyC, hsellC, _, _, _, _, _⟩ := reachable_init_BookInv ex hre o.symbol
  by_cases hside : o.side = "BUY"
  · simp only [if_pos hside]
    have hsort : SortedB priceLe
        (((init_symbol_if_needed ex o.symbol).order_books o.symbol).getD ⟨[], []⟩).sell :=
      sortedB_of_pairwise_compO priceLe priceLe_of_eq
        (hsellC.imp (fun h => (askComp_iff _ _).mp h))
    obtain ⟨htr, _, hbooks⟩ := on_order_received_spec_buy ex o hside _ rfl hsort _ rfl
    have hrem : o.quantity - sumTQty (on_order_received ex o).2
        = (runLoop (match_condition o.side o.price) (trade_info o.side o.symbol o.username)
            (((init_symbol_if_needed ex o.symbol).order_books o.symbol).getD ⟨[], []⟩).sell
            o.quantity).2.1 := by
      rw [htr]
      rw [runLoop_remaining _ _ (fun _ _ => rfl)]
    have hpost : (((on_order_received ex o).1.order_books o.symbol).getD ⟨[], []⟩).buy
        = (if 0 < (runLoop (match_condition o.side o.price)
              (trade_info o.side o.symbol o.username)
              (((init_symbol_if_needed ex o.symbol).order_books o.symbol).getD ⟨[], []⟩).sell
              o.quantity).2.1
           then stableSort priceGe
             ((((init_symbol_if_needed ex o.symbol).order_books o.symbol).getD ⟨[], []⟩).buy ++
               [{ username := o.username, symbol := o.symbol, side := o.side,
                  price := o.price,
                  quantity := (runLoop (match_condition o.side o.price)
                    (trade_info o.side o.symbol o.username)
                    (((init_symbol_if_needed ex o.symbol).order_books o.symbol).getD
                      ⟨[], []⟩).sell o.quantity).2.1,
                  arrival := ex.next_arrival }])
           else (((init_symbol_if_needed ex o.symbol).order_books o.symbol).getD ⟨[], []⟩).buy) := by
      rw [hbooks o.symbol, if_pos rfl]
      rfl
    rw [hpost, hrem]
    by_cases hr : 0 < (runLoop (match_condition o.side o.price)
        (trade_info o.side o.symbol o.username)
        (((init_symbol_if_needed ex o.symbol).order_books o.symbol).getD ⟨[], []⟩).sell
        o.quantity).2.1
    · rw [if_pos hr, if_pos hr]
      exact (stableSort_perm priceGe _).trans (List.perm_append_singleton _ _)
    · rw [if_neg hr, if_neg hr]
  · simp only [if_neg hside]
    have hsort : SortedB priceGe
        (((init_symbol_if_needed ex o.symbol).order_books o.symbol).getD ⟨[], []⟩).buy :=
      sortedB_of_pairwise_compO priceGe priceGe_of_eq
        (hbuyC.imp (fun h => (bidComp_iff _ _).mp h))
    obtain ⟨htr, _, hbooks⟩ := on_order_received_spec_other ex o hside _ rfl hsort _ rfl
    have hrem : o.quantity - sumTQty (on_order_received ex o).2
        = (runLoop (match_condition o.side o.price) (trade_info o.side o.symbol o.username)
            (((init_symbol_if_needed ex o.symbol).order_books o.symbol).getD ⟨[], []⟩).buy
            o.quantity).2.1 := by
      rw [htr]
      rw [runLoop_remaining _ _ (fun _ _ => rfl)]
    have hpost : (((on_order_received ex o).1.order_books o.symbol).getD ⟨[], []⟩).sell
        = (if 0 < (runLoop (match_condition o.side o.price)
              (trade_info o.side o.symbol o.username)
              (((init_symbol_if_needed ex o.symbol).order_books o.symbol).getD ⟨[], []⟩).buy
              o.quantity).2.1
           then stableSort priceLe
             ((((init_symbol_if_needed ex o.symbol).order_books o.symbol).getD ⟨[], []⟩).sell ++
               [{ username := o.username, symbol := o.symbol, side := o.side,
                  price := o.price,
                  quantity := (runLoop (match_condition o.side o.price)
                    (trade_info o.side o.symbol o.username)
                    (((init_symbol_if_needed ex o.symbol).order_books o.symbol).getD
                      ⟨[], []⟩).buy o.quantity).2.1,
                  arrival := ex.next_arrival }])
           else (((init_symbol_if_needed ex o.symbol).order_books o.symbol).getD ⟨[], []⟩).sell) := by
      rw [hbooks o.symbol, if_pos rfl]
      rfl
    rw [hpost, hrem]
    by_cases hr : 0 < (runLoop (match_condition o.side o.price)
        (trade_info o.side o.symbol o.username)
        (((init_symbol_if_needed ex o.symbol).order_books o.symbol).getD ⟨[], []⟩).buy
        o.quantity).2.1
    · rw [if_pos hr, if_pos hr]
      exact (stableSort_perm priceLe _).trans (List.perm_append_singleton _ _)
    · rw [if_neg hr, if_neg hr]

/-- C10: an order with quantity `0` produces no trades and inserts
nothing: the only possible change to the registry is the creation of an
empty book for its symbol when that symbol was not yet present. -/
theorem c10_zero_quantity (ex : Exchange) (o : Order) (hq : o.quantity = 0) :
    (on_order_received ex o).2 = [] ∧
    ∀ s, (on_order_received ex o).1.order_books s
      = if s = o.symbol ∧ ex.order_books o.symbol = none then some ⟨[], []⟩
        else ex.order_books s := by
  have hmain : ∀ s, (on_order_received ex o).1.order_books s
      = if s = o.symbol
        then some (((init_symbol_if_needed ex o.symbol).order_books o.symbol).getD ⟨[], []⟩)
        else (init_symbol_if_needed ex o.symbol).order_books s := by
    intro s
    unfold on_order_received
    simp only [hq, matchLoopRun_zero, lt_self_iff_false, if_false]
    by_cases hside : o.side = "BUY"
    · simp only [hside, eq_self_iff_true, ite_true]
    · simp only [if_neg hside]
  constructor
  · show (on_order_received ex o).2 = []
    unfold on_order_received
    simp only [hq, matchLoopRun_zero]
  · intro s
    rw [hmain s]
    by_cases hs : s = o.symbol
    · rw [if_pos hs]
      rcases init_books_cases ex o.symbol with ⟨he, hnone⟩ | hsome
      · rw [he, if_pos ⟨hs, hnone⟩]
      · rw [if_neg ?hc, hs, ← hsome]
        case hc =>
          intro hcon
          rw [hcon.2] at hsome
          exact Option.noConfusion hsome
    · rw [if_neg hs, init_books_ne ex o.symbol s hs,
        if_neg (fun hcon => hs hcon.1)]

/-- C9: any side string other than `"BUY"` is handled exactly like a
SELL: every emitted trade records the submitter as the seller at a
price at least the order's limit (the `>=` crossing condition against
the buy side), the emitted trades coincide with those of the same order
with side `"SELL"`, and the resulting books coincide — other symbols
exactly, and the order's own book exactly on the buy side and up to the
(never read) stored side strings on the sell side, where the residual
keeps the original side value. -/
theorem c9_unknown_side (ex : Exchange) (hre : Reachable ex) (o : Order)
    (hside : o.side ≠ "BUY") :
    (∀ t ∈ (on_order_received ex o).2, t.seller = o.username ∧ o.price ≤ t.price) ∧
    (on_order_received ex o).2 = (on_order_received ex (withSellSide o)).2 ∧
    (∀ s, s ≠ o.symbol → (on_order_received ex o).1.order_books s
      = (on_order_received ex (withSellSide o)).1.order_books s) ∧
    (∀ bk bk', (on_order_received ex o).1.order_books o.symbol = some bk →
      (on_order_received ex (withSellSide o)).1.order_books o.symbol = some bk' →
      bk.buy = bk'.buy ∧ bk.sell.map withSellSide = bk'.sell.map withSellSide) := by
  obtain ⟨hbuyC, _, _, _, _, _, _⟩ := reachable_init_BookInv ex hre o.symbol
  have hsort : SortedB priceGe
      (((init_symbol_if_needed ex o.symbol).order_books o.symbol).getD ⟨[], []⟩).buy :=
    sortedB_of_pairwise_compO priceGe priceGe_of_eq
      (hbuyC.imp (fun h => (bidComp_iff _ _).mp h))
  obtain ⟨htr, hna, hbooks⟩ := on_order_received_spec_other ex o hside _ rfl hsort _ rfl
  have hsideS : (withSellSide o).side ≠ "BUY" := by
    show "SELL" ≠ "BUY"
    decide
  obtain ⟨htr', hna', hbooks'⟩ := on_order_received_spec_other ex (withSellSide o) hsideS
    (((init_symbol_if_needed ex o.symbol).order_books o.symbol).getD ⟨[], []⟩) rfl hsort _ rfl
  have hml : match_condition o.side o.price
      = match_condition (withSellSide o).side (withSellSide o).price := by
    show match_condition o.side o.price = match_condition "SELL" o.price
    exact match_condition_eq_sell o.side hside o.price
  have hti : trade_info o.side o.symbol o.username
      = trade_info (withSellSide o).side (withSellSide o).symbol (withSellSide o).username := by
    show trade_info o.side o.symbol o.username = trade_info "SELL" o.symbol o.username
    exact trade_info_eq_sell o.side hside o.symbol o.username
  have hloops : runLoop (match_condition o.side o.price)
        (trade_info o.side o.symbol o.username)
        (((init_symbol_if_needed ex o.symbol).order_books o.symbol).getD ⟨[], []⟩).buy
        o.quantity
      = runLoop (match_condition (withSellSide o).side (withSellSide o).price)
        (trade_info (withSellSide o).side (withSellSide o).symbol (withSellSide o).username)
        (((init_symbol_if_needed ex o.symbol).order_books o.symbol).getD ⟨[], []⟩).buy
        (withSellSide o).quantity := by
    rw [← hml, ← hti]
    rfl
  refine ⟨?_, ?_, ?_, ?_⟩
  · intro t ht
    rw [htr] at ht
    obtain ⟨m, hm, q, rfl, hc⟩ := runLoop_trades _ _ _ _ _ ht
    constructor
    · show (if o.side = "BUY" then m.username else o.username) = o.username
      rw [if_neg hside]
    · show o.price ≤ m.price
      unfold match_condition at hc
      rw [if_neg hside] at hc
      simp only [ge_iff_le, decide_eq_true_eq] at hc
      exact hc
  · rw [htr, htr', ← hloops]
  · intro s hs
    rw [hbooks s, if_neg hs, hbooks' s,
      if_neg (show ¬ s = (withSellSide o).symbol from hs)]
    rfl
  · intro bk bk' hbk hbk'
    rw [hbooks o.symbol, if_pos rfl] at hbk
    rw [hbooks' o.symbol,
      if_pos (show o.symbol = (withSellSide o).symbol from rfl)] at hbk'
    obtain rfl := (Option.some.inj hbk).symm
    obtain rfl := (Option.some.inj hbk').symm
    constructor
    · show (runLoop (match_condition o.side o.price)
          (trade_info o.side o.symbol o.username)
          (((init_symbol_if_needed ex o.symbol).order_books o.symbol).getD ⟨[], []⟩).buy
          o.quantity).1
        = (runLoop (match_condition (withSellSide o).side (withSellSide o).price)
          (trade_info (withSellSide o).side (withSellSide o).symbol
            (withSellSide o).username)
          (((init_symbol_if_needed ex o.symbol).order_books o.symbol).getD ⟨[], []⟩).buy
          (withSellSide o).quantity).1
      rw [← hloops]
    · show (if 0 < (runLoop (match_condition o.side o.price)
            (trade_info o.side o.symbol o.username)
            (((init_symbol_if_needed ex o.symbol).order_books o.symbol).getD ⟨[], []⟩).buy
            o.quantity).2.1
          then stableSort priceLe
            ((((init_symbol_if_needed ex o.symbol).order_books o.symbol).getD ⟨[], []⟩).sell ++
              [{ username := o.username, symbol := o.symbol, side := o.side,
                 price := o.price,
                 quantity := (runLoop (match_condition o.side o.price)
                   (trade_info o.side o.symbol o.username)
                   (((init_symbol_if_needed ex o.symbol).order_books o.symbol).getD
                     ⟨[], []⟩).buy o.quantity).2.1,
                 arrival := ex.next_arrival }])
          else (((init_symbol_if_needed ex o.symbol).order_books o.symbol).getD
            ⟨[], []⟩).sell).map withSellSide
        = (if 0 < (runLoop (match_condition (withSellSide o).side (withSellSide o).price)
            (trade_info (withSellSide o).side (withSellSide o).symbol
              (withSellSide o).username)
            (((init_symbol_if_needed ex o.symbol).order_books o.symbol).getD ⟨[], []⟩).buy
            (withSellSide o).quantity).2.1
          then stableSort priceLe
            ((((init_symbol_if_needed ex o.symbol).order_books o.symbol).getD ⟨[], []⟩).sell ++
              [{ username := (withSellSide o).username, symbol := (withSellSide o).symbol,
                 side := (withSellSide o).side, price := (withSellSide o).price,
                 quantity := (runLoop (match_condition (withSellSide o).side
                     (withSellSide o).price)
                   (trade_info (withSellSide o).side (withSellSide o).symbol
                     (withSellSide o).username)
                   (((init_symbol_if_needed ex o.symbol).order_books o.symbol).getD
                     ⟨[], []⟩).buy (withSellSide o).quantity).2.1,
                 arrival := ex.next_arrival }])
          else (((init_symbol_if_needed ex o.symbol).order_books o.symbol).getD
            ⟨[], []⟩).sell).map withSellSide
      rw [← hloops]
      by_cases hr : 0 < (runLoop (match_condition o.side o.price)
          (trade_info o.side o.symbol o.username)
          (((init_symbol_if_needed ex o.symbol).order_books o.symbol).getD ⟨[], []⟩).buy
          o.quantity).2.1
      · rw [if_pos hr, if_pos hr,
          ← stableSort_map_comm priceLe withSellSide (fun _ _ => rfl),
          ← stableSort_map_comm priceLe withSellSide (fun _ _ => rfl),
          List.map_append, List.map_append]
        rfl
      · rw [if_neg hr, if_neg hr]

/-- `BookInv` for the (possibly freshly created) book of a symbol, from
the exchange invariant alone. -/
theorem ExInv_init_BookInv (ex : Exchange) (hex : ExInv ex) (symbol : String) :
    BookInv ex.next_arrival
      (((init_symbol_if_needed ex symbol).order_books symbol).getD ⟨[], []⟩) := by
  rcases init_books_cases ex symbol with ⟨he, _⟩ | hsome
  · rw [he]
    exact BookInv_empty _
  · exact hex symbol _ hsome

theorem sumQty_perm (l1 l2 : List Order) (h : l1.Perm l2) : sumQty l1 = sumQty l2 :=
  (h.map Order.quantity).sum_eq

theorem submittedQty_single_t (S : String) (bs : Bool) (o : Order)
    (hc : (o.symbol == S && ((o.side == "BUY") == bs)) = true) :
    submittedQty S bs [o] = o.quantity := by
  unfold submittedQty
  rw [List.filter_cons, hc]
  simp

theorem submittedQty_single_f (S : String) (bs : Bool) (o : Order)
    (hc : (o.symbol == S && ((o.side == "BUY") == bs)) = false) :
    submittedQty S bs [o] = 0 := by
  unfold submittedQty
  rw [List.filter_cons, hc]
  rfl

theorem restingQty_book_buy (ex : Exchange) (sym : String) :
    restingQty ex sym true
      = sumQty (((init_symbol_if_needed ex sym).order_books sym).getD ⟨[], []⟩).buy :=
  (restingQty_eq_book ex sym true).trans rfl

theorem restingQty_book_sell (ex : Exchange) (sym : String) :
    restingQty ex sym false
      = sumQty (((init_symbol_if_needed ex sym).order_books sym).getD ⟨[], []⟩).sell :=
  (restingQty_eq_book ex sym false).trans rfl

theorem step_accounting (ex : Exchange) (o : Order) (hex : ExInv ex) (hv : ValidOrder o)
    (S : String) (bs : Bool) :
    restingQty (on_order_received ex o).1 S bs + tradedQty S (on_order_received ex o).2
      = restingQty ex S bs + submittedQty S bs [o] := by
  obtain ⟨hbuyC, hsellC, _, _, _, _, _⟩ := ExInv_init_BookInv ex hex o.symbol
  by_cases hside : o.side = "BUY"
  · have hsort : SortedB priceLe
        (((init_symbol_if_needed ex o.symbol).order_books o.symbol).getD ⟨[], []⟩).sell :=
      sortedB_of_pairwise_compO priceLe priceLe_of_eq
        (hsellC.imp (fun h => (askComp_iff _ _).mp h))
    obtain ⟨htr, _, hbooks⟩ := on_order_received_spec_buy ex o hside _ rfl hsort _ rfl
    have htsym : ∀ t ∈ (runLoop (match_condition o.side o.price)
        (trade_info o.side o.symbol o.username)
        (((init_symbol_if_needed ex o.symbol).order_books o.symbol).getD ⟨[], []⟩).sell
        o.quantity).2.2, t.symbol = o.symbol := by
      intro t ht
      obtain ⟨m, _, q, rfl, _⟩ := runLoop_trades _ _ _ _ _ ht
      rfl
    have htraded : tradedQty S (on_order_received ex o).2
        = if S = o.symbol then sumTQty (runLoop (match_condition o.side o.price)
            (trade_info o.side o.symbol o.username)
            (((init_symbol_if_needed ex o.symbol).order_books o.symbol).getD ⟨[], []⟩).sell
            o.quantity).2.2 else 0 := by
      rw [htr]
      exact tradedQty_of_symbol S o.symbol _ htsym
    have hrem := runLoop_remaining (match_condition o.side o.price)
      (trade_info o.side o.symbol o.username) (fun _ _ => rfl)
      (((init_symbol_if_needed ex o.symbol).order_books o.symbol).getD ⟨[], []⟩).sell
      o.quantity
    have hnn := runLoop_remaining_nonneg (match_condition o.side o.price)
      (trade_info o.side o.symbol o.username)
      (((init_symbol_if_needed ex o.symbol).order_books o.symbol).getD ⟨[], []⟩).sell
      o.quantity (le_of_lt hv.1)
    by_cases hS : S = o.symbol
    · subst hS
      cases bs with
      | true =>
        have hrest : restingQty (on_order_received ex o).1 o.symbol true
            = sumQty (if 0 < (runLoop (match_condition o.side o.price)
                (trade_info o.side o.symbol o.username)
                (((init_symbol_if_needed ex o.symbol).order_books o.symbol).getD ⟨[], []⟩).sell
                o.quantity).2.1
              then stableSort priceGe
                ((((init_symbol_if_needed ex o.symbol).order_books o.symbol).getD ⟨[], []⟩).buy ++
                  [{ username := o.username, symbol := o.symbol, side := o.side,
                     price := o.price,
                     quantity := (runLoop (match_condition o.side o.price)
                       (trade_info o.side o.symbol o.username)
                       (((init_symbol_if_needed ex o.symbol).order_books o.symbol).getD ⟨[], []⟩).sell
                       o.quantity).2.1,
                     arrival := ex.next_arrival }])
              else (((init_symbol_if_needed ex o.symbol).order_books o.symbol).getD ⟨[], []⟩).buy) := by
          unfold restingQty
          rw [hbooks o.symbol, if_pos rfl]
          rfl
        have hnb : sumQty (if 0 < (runLoop (match_condition o.side o.price)
                (trade_info o.side o.symbol o.username)
                (((init_symbol_if_needed ex o.symbol).order_books o.symbol).getD ⟨[], []⟩).sell
                o.quantity).2.1
              then stableSort priceGe
                ((((init_symbol_if_needed ex o.symbol).order_books o.symbol).getD ⟨[], []⟩).buy ++
                  [{ username := o.username, symbol := o.symbol, side := o.side,
                     price := o.price,
                     quantity := (runLoop (match_condition o.side o.price)
                       (trade_info o.side o.symbol o.username)
                       (((init_symbol_if_needed ex o.symbol).order_books o.symbol).getD ⟨[], []⟩).sell
                       o.quantity).2.1,
                     arrival := ex.next_arrival }])
              else (((init_symbol_if_needed ex o.symbol).order_books o.symbol).getD ⟨[], []⟩).buy)
            = sumQty (((init_symbol_if_needed ex o.symbol).order_books o.symbol).getD ⟨[], []⟩).buy
              + (runLoop (match_condition o.side o.price)
                (trade_info o.side o.symbol o.username)
                (((init_symbol_if_needed ex o.symbol).order_books o.symbol).getD ⟨[], []⟩).sell
                o.quantity).2.1 := by
          by_cases hr : 0 < (runLoop (match_condition o.side o.price)
              (trade_info o.side o.symbol o.username)
              (((init_symbol_if_needed ex o.symbol).order_books o.symbol).getD ⟨[], []⟩).sell
              o.quantity).2.1
          · rw [if_pos hr, sumQty_perm _ _ (stableSort_perm priceGe _)]
            simp only [sumQty, List.map_append, List.sum_append, List.map_cons,
              List.map_nil, List.sum_cons, List.sum_nil]
            omega
          · rw [if_neg hr]
            omega
        have hsub : submittedQty o.symbol true [o] = o.quantity := by
          apply submittedQty_single_t
          simp [hside]
        rw [hrest, hnb, htraded, if_pos rfl, restingQty_book_buy ex o.symbol, hsub]
        omega
      | false =>
        have hrest : restingQty (on_order_received ex o).1 o.symbol false
            = sumQty (runLoop (match_condition o.side o.price)
                (trade_info o.side o.symbol o.username)
                (((init_symbol_if_needed ex o.symbol).order_books o.symbol).getD ⟨[], []⟩).sell
                o.quantity).1 := by
          unfold restingQty
          rw [hbooks o.symbol, if_pos rfl]
          rfl
        have hsum := runLoop_sum (match_condition o.side o.price)
          (trade_info o.side o.symbol o.username) (fun _ _ => rfl)
          (((init_symbol_if_needed ex o.symbol).order_books o.symbol).getD ⟨[], []⟩).sell o.quantity
        have hsub : submittedQty o.symbol false [o] = 0 := by
          apply submittedQty_single_f
          simp [hside]
        rw [hrest, htraded, if_pos rfl, restingQty_book_sell ex o.symbol, hsub]
        omega
    · have hrest : restingQty (on_order_received ex o).1 S bs = restingQty ex S bs := by
        unfold restingQty
        rw [hbooks S, if_neg hS, init_books_ne ex o.symbol S hS]
      have hsub : submittedQty S bs [o] = 0 := by
        apply submittedQty_single_f
        have h0 : (o.symbol == S) = false := by
          simp only [beq_eq_false_iff_ne, ne_eq]
          intro hcon
          exact hS hcon.symm
        simp [h0]
      rw [hrest, htraded, if_neg hS, hsub]
  · have hSELL : o.side = "SELL" := by
      rcases hv.2.2 with h | h
      · exact absurd h hside
      · exact h
    have hsort : SortedB priceGe
        (((init_symbol_if_needed ex o.symbol).order_books o.symbol).getD ⟨[], []⟩).buy :=
      sortedB_of_pairwise_compO priceGe priceGe_of_eq
        (hbuyC.imp (fun h => (bidComp_iff _ _).mp h))
    obtain ⟨htr, _, hbooks⟩ := on_order_received_spec_other ex o hside _ rfl hsort _ rfl
    have htsym : ∀ t ∈ (runLoop (match_condition o.side o.price)
        (trade_info o.side o.symbol o.username)
        (((init_symbol_if_needed ex o.symbol).order_books o.symbol).getD ⟨[], []⟩).buy
        o.quantity).2.2, t.symbol = o.symbol := by
      intro t ht
      obtain ⟨m, _, q, rfl, _⟩ := runLoop_trades _ _ _ _ _ ht
      rfl
    have htraded : tradedQty S (on_order_received ex o).2
        = if S = o.symbol then sumTQty (runLoop (match_condition o.side o.price)
            (trade_info o.side o.symbol o.username)
            (((init_symbol_if_needed ex o.symbol).order_books o.symbol).getD ⟨[], []⟩).buy
            o.quantity).2.2 else 0 := by
      rw [htr]
      exact tradedQty_of_symbol S o.symbol _ htsym
    have hrem := runLoop_remaining (match_condition o.side o.price)
      (trade_info o.side o.symbol o.username) (fun _ _ => rfl)
      (((init_symbol_if_needed ex o.symbol).order_books o.symbol).getD ⟨[], []⟩).buy
      o.quantity
    have hnn := runLoop_remaining_nonneg (match_condition o.side o.price)
      (trade_info o.side o.symbol o.username)
      (((init_symbol_if_needed ex o.symbol).order_books o.symbol).getD ⟨[], []⟩).buy
      o.quantity (le_of_lt hv.1)
    by_cases hS : S = o.symbol
    · subst hS
      cases bs with
      | false =>
        have hrest : restingQty (on_order_received ex o).1 o.symbol false
            = sumQty (if 0 < (runLoop (match_condition o.side o.price)
                (trade_info o.side o.symbol o.username)
                (((init_symbol_if_needed ex o.symbol).order_books o.symbol).getD ⟨[], []⟩).buy
                o.quantity).2.1
              then stableSort priceLe
                ((((init_symbol_if_needed ex o.symbol).order_books o.symbol).getD ⟨[], []⟩).sell ++
                  [{ username := o.username, symbol := o.symbol, side := o.side,
                     price := o.price,
                     quantity := (runLoop (match_condition o.side o.price)
                       (trade_info o.side o.symbol o.username)
                       (((init_symbol_if_needed ex o.symbol).order_books o.symbol).getD ⟨[], []⟩).buy
                       o.quantity).2.1,
                     arrival := ex.next_arrival }])
              else (((init_symbol_if_needed ex o.symbol).order_books o.symbol).getD ⟨[], []⟩).sell) := by
          unfold restingQty
          rw [hbooks o.symbol, if_pos rfl]
          rfl
        have hnb : sumQty (if 0 < (runLoop (match_condition o.side o.price)
                (trade_info o.side o.symbol o.username)
                (((init_symbol_if_needed ex o.symbol).order_books o.symbol).getD ⟨[], []⟩).buy
                o.quantity).2.1
              then stableSort priceLe
                ((((init_symbol_if_needed ex o.symbol).order_books o.symbol).getD ⟨[], []⟩).sell ++
                  [{ username := o.username, symbol := o.symbol, side := o.side,
                     price := o.price,
                     quantity := (runLoop (match_condition o.side o.price)
                       (trade_info o.side o.symbol o.username)
                       (((init_symbol_if_needed ex o.symbol).order_books o.symbol).getD ⟨[], []⟩).buy
                       o.quantity).2.1,
                     arrival := ex.next_arrival }])
              else (((init_symbol_if_needed ex o.symbol).order_books o.symbol).getD ⟨[], []⟩).sell)
            = sumQty (((init_symbol_if_needed ex o.symbol).order_books o.symbol).getD ⟨[], []⟩).sell
              + (runLoop (match_condition o.side o.price)
                (trade_info o.side o.symbol o.username)
                (((init_symbol_if_needed ex o.symbol).order_books o.symbol).getD ⟨[], []⟩).buy
                o.quantity).2.1 := by
          by_cases hr : 0 < (runLoop (match_condition o.side o.price)
              (trade_info o.side o.symbol o.username)
              (((init_symbol_if_needed ex o.symbol).order_books o.symbol).getD ⟨[], []⟩).buy
              o.quantity).2.1
          · rw [if_pos hr, sumQty_perm _ _ (stableSort_perm priceLe _)]
            simp only [sumQty, List.map_append, List.sum_append, List.map_cons,
              List.map_nil, List.sum_cons, List.sum_nil]
            omega
          · rw [if_neg hr]
            omega
        have hsub : submittedQty o.symbol false [o] = o.quantity := by
          apply submittedQty_single_t
          simp [hSELL]
        rw [hrest, hnb, htraded, if_pos rfl, restingQty_book_sell ex o.symbol, hsub]
        omega
      | true =>
        have hrest : restingQty (on_order_received ex o).1 o.symbol true
            = sumQty (runLoop (match_condition o.side o.price)
                (trade_info o.side o.symbol o.username)
                (((init_symbol_if_needed ex o.symbol).order_books o.symbol).getD ⟨[], []⟩).buy
                o.quantity).1 := by
          unfold restingQty
          rw [hbooks o.symbol, if_pos rfl]
          rfl
        have hsum := runLoop_sum (match_condition o.side o.price)
          (trade_info o.side o.symbol o.username) (fun _ _ => rfl)
          (((init_symbol_if_needed ex o.symbol).order_books o.symbol).getD ⟨[], []⟩).buy o.quantity
        have hsub : submittedQty o.symbol true [o] = 0 := by
          apply submittedQty_single_f
          simp [hSELL]
        rw [hrest, htraded, if_pos rfl, restingQty_book_buy ex o.symbol, hsub]
        omega
    · have hrest : restingQty (on_order_received ex o).1 S bs = restingQty ex S bs := by
        unfold restingQty
        rw [hbooks S, if_neg hS, init_books_ne ex o.symbol S hS]
      have hsub : submittedQty S bs [o] = 0 := by
        apply submittedQty_single_f
        have h0 : (o.symbol == S) = false := by
          simp only [beq_eq_false_iff_ne, ne_eq]
          intro hcon
          exact hS hcon.symm
        simp [h0]
      rw [hrest, htraded, if_neg hS, hsub]


theorem processAll_accounting :
    ∀ (orders : List Order) (ex : Exchange), ExInv ex → (∀ o ∈ orders, ValidOrder o) →
      ∀ (S : String) (bs : Bool),
        restingQty (processAll ex orders).1 S bs + tradedQty S (processAll ex orders).2
          = restingQty ex S bs + submittedQty S bs orders := by
  intro orders
  induction orders with
  | nil =>
    intro ex _ _ S bs
    simp [processAll, tradedQty, submittedQty, sumTQty]
  | cons o rest ih =>
    intro ex hex hv S bs
    have hstep := step_accounting ex o hex (hv o (by simp)) S bs
    have hrest := ih (on_order_received ex o).1 (ExInv_step ex o hex)
      (fun u hu => hv u (List.mem_cons_of_mem o hu)) S bs
    have hshape : processAll ex (o :: rest)
        = ((processAll (on_order_received ex o).1 rest).1,
           (on_order_received ex o).2 ++ (processAll (on_order_received ex o).1 rest).2) := rfl
    rw [hshape, submittedQty_cons]
    simp only [tradedQty_append]
    omega

/-- C3: conservation of quantity.  Starting from the empty registry and
processing any sequence of valid orders: for each symbol the total
traded quantity is at most the total submitted quantity on each side,
and resting quantity plus traded quantity equals submitted quantity on
each side. -/
theorem c3_conservation (orders : List Order) (hv : ∀ o ∈ orders, ValidOrder o)
    (S : String) :
    tradedQty S (processAll emptyExchange orders).2 ≤ submittedQty S true orders ∧
    tradedQty S (processAll emptyExchange orders).2 ≤ submittedQty S false orders ∧
    restingQty (processAll emptyExchange orders).1 S true
      + tradedQty S (processAll emptyExchange orders).2 = submittedQty S true orders ∧
    restingQty (processAll emptyExchange orders).1 S false
      + tradedQty S (processAll emptyExchange orders).2 = submittedQty S false orders := by
  have hT := processAll_accounting orders emptyExchange ExInv_empty hv S true
  have hF := processAll_accounting orders emptyExchange ExInv_empty hv S false
  have hrq : ∀ bs, restingQty emptyExchange S bs = 0 := fun _ => rfl
  have hnn : ∀ bs, 0 ≤ restingQty (processAll emptyExchange orders).1 S bs := by
    intro bs
    unfold restingQty
    cases hob : (processAll emptyExchange orders).1.order_books S with
    | none => simp
    | some b =>
      obtain ⟨_, _, _, _, hbB, hsB, _⟩ := reachable_ExInv _
        (reachable_processAll emptyExchange Reachable.empty orders) S b hob
      cases bs with
      | true => exact sumQty_nonneg b.buy (fun x hx => (hbB x hx).2)
      | false => exact sumQty_nonneg b.sell (fun x hx => (hsB x hx).2)
  rw [hrq true] at hT
  rw [hrq false] at hF
  have h1 := hnn true
  have h2 := hnn false
  refine ⟨by omega, by omega, by omega, by omega⟩

/-! ## Concrete evaluations of the claims -/

/-- `c2_book_ordering` evaluated on a populated two-sided book. -/
theorem c2_book_ordering_witness :
    ((exRest.order_books "AAPL").getD ⟨[], []⟩).buy.Pairwise
      (fun x y => y.price < x.price ∨ (x.price = y.price ∧ x.arrival < y.arrival)) ∧
    ((exRest.order_books "AAPL").getD ⟨[], []⟩).sell.Pairwise
      (fun x y => x.price < y.price ∨ (x.price = y.price ∧ x.arrival < y.arrival)) :=
  c2_book_ordering exRest
    (reachable_processAll emptyExchange Reachable.empty [wSellA, wBuyA, wSellA2, wBuyA2])
    "AAPL" _ (by decide)

/-- `c4_no_cross` evaluated at a concrete resting bid and ask. -/
theorem c4_no_cross_witness :
    (⟨"bob", "BUY", "AAPL", 40, 5, 1⟩ : Order).price
      < (⟨"alice", "SELL", "AAPL", 50, 10, 0⟩ : Order).price :=
  c4_no_cross exRest
    (reachable_processAll emptyExchange Reachable.empty [wSellA, wBuyA, wSellA2, wBuyA2])
    "AAPL" ((exRest.order_books "AAPL").getD ⟨[], []⟩) (by decide)
    ⟨"bob", "BUY", "AAPL", 40, 5, 1⟩ (by decide)
    ⟨"alice", "SELL", "AAPL", 50, 10, 0⟩ (by decide)

/-- `c8_frame` evaluated on a concrete state: a foreign symbol is
untouched and the processed symbol keeps a registry entry. -/
theorem c8_frame_witness :
    (on_order_received exRest wBuyCross).1.order_books "MSFT" = exRest.order_books "MSFT" ∧
    ∃ bx', (on_order_received exRest wBuyCross).1.order_books "AAPL" = some bx' :=
  ⟨(c8_frame exRest wBuyCross).1 "MSFT" (by decide),
   (c8_frame exRest wBuyCross).2 "AAPL" ((exRest.order_books "AAPL").getD ⟨[], []⟩)
     (by decide)⟩

/-- `c1_maker_price` evaluated on the trade produced by a crossing BUY:
its price 50 is the resting ask's, not the aggressor's 55. -/
theorem c1_maker_price_witness :
    ∃ m ∈ (if wBuyCross.side = "BUY"
        then (((init_symbol_if_needed exRest wBuyCross.symbol).order_books
          wBuyCross.symbol).getD ⟨[], []⟩).sell
        else (((init_symbol_if_needed exRest wBuyCross.symbol).order_books
          wBuyCross.symbol).getD ⟨[], []⟩).buy),
      (⟨"AAPL", "erin", "alice", 50, 4⟩ : Trade).price = m.price ∧
      (if wBuyCross.side = "BUY"
        then (⟨"AAPL", "erin", "alice", 50, 4⟩ : Trade).buyer = wBuyCross.username ∧
          (⟨"AAPL", "erin", "alice", 50, 4⟩ : Trade).seller = m.username
        else (⟨"AAPL", "erin", "alice", 50, 4⟩ : Trade).seller = wBuyCross.username ∧
          (⟨"AAPL", "erin", "alice", 50, 4⟩ : Trade).buyer = m.username) :=
  c1_maker_price exRest
    (reachable_processAll emptyExchange Reachable.empty [wSellA, wBuyA, wSellA2, wBuyA2])
    wBuyCross ⟨"AAPL", "erin", "alice", 50, 4⟩ (by decide)

/-- `c7_terminating` evaluated on a crossing BUY against a two-entry
ask list. -/
theorem c7_terminating_witness :
    (∃ s', matchLoopFuel (sort_opposite wBuyCross.side)
        (match_condition wBuyCross.side wBuyCross.price)
        (trade_info wBuyCross.side wBuyCross.symbol wBuyCross.username)
        ((if wBuyCross.side = "BUY"
            then (((init_symbol_if_needed exRest wBuyCross.symbol).order_books
              wBuyCross.symbol).getD ⟨[], []⟩).sell
            else (((init_symbol_if_needed exRest wBuyCross.symbol).order_books
              wBuyCross.symbol).getD ⟨[], []⟩).buy).length + 2)
        ⟨(if wBuyCross.side = "BUY"
            then (((init_symbol_if_needed exRest wBuyCross.symbol).order_books
              wBuyCross.symbol).getD ⟨[], []⟩).sell
            else (((init_symbol_if_needed exRest wBuyCross.symbol).order_books
              wBuyCross.symbol).getD ⟨[], []⟩).buy),
          wBuyCross.quantity, []⟩ = some s') ∧
    (on_order_received exRest wBuyCross).2.length
      ≤ (if wBuyCross.side = "BUY"
          then (((init_symbol_if_needed exRest wBuyCross.symbol).order_books
            wBuyCross.symbol).getD ⟨[], []⟩).sell
          else (((init_symbol_if_needed exRest wBuyCross.symbol).order_books
            wBuyCross.symbol).getD ⟨[], []⟩).buy).length + 1 :=
  c7_terminating exRest
    (reachable_processAll emptyExchange Reachable.empty [wSellA, wBuyA, wSellA2, wBuyA2])
    wBuyCross (by decide) (by decide) (by decide)

/-- `c5_time_priority` evaluated: after a partial BUY against two
equal-priced asks, the earlier ask survives decremented, so the later
ask survives untouched. -/
theorem c5_time_priority_witness :
    (⟨"ben", "SELL", "AAPL", 100, 5, 1⟩ : Order) ∈ (if wBuyPart.side = "BUY"
        then (((on_order_received exPair wBuyPart).1.order_books
          wBuyPart.symbol).getD ⟨[], []⟩).sell
        else (((on_order_received exPair wBuyPart).1.order_books
          wBuyPart.symbol).getD ⟨[], []⟩).buy) :=
  c5_time_priority exPair
    (reachable_processAll emptyExchange Reachable.empty [wSellP, wSellQ])
    wBuyPart
    ⟨"ann", "SELL", "AAPL", 100, 5, 0⟩ ⟨"ben", "SELL", "AAPL", 100, 5, 1⟩
    ⟨"ann", "SELL", "AAPL", 100, 2, 0⟩
    (by decide) (by decide) (by decide) (by decide) (by decide) (by decide)

/-- `c6_residual` evaluated on a fully filled BUY (no residual is
inserted). -/
theorem c6_residual_witness :
    (if wBuyCross.side = "BUY"
      then (((on_order_received exRest wBuyCross).1.order_books
        wBuyCross.symbol).getD ⟨[], []⟩).buy
      else (((on_order_received exRest wBuyCross).1.order_books
        wBuyCross.symbol).getD ⟨[], []⟩).sell).Perm
    (if 0 < wBuyCross.quantity - sumTQty (on_order_received exRest wBuyCross).2
      then { username := wBuyCross.username, side := wBuyCross.side,
             symbol := wBuyCross.symbol, price := wBuyCross.price,
             quantity := wBuyCross.quantity
               - sumTQty (on_order_received exRest wBuyCross).2,
             arrival := exRest.next_arrival }
          :: (if wBuyCross.side = "BUY"
            then (((init_symbol_if_needed exRest wBuyCross.symbol).order_books
              wBuyCross.symbol).getD ⟨[], []⟩).buy
            else (((init_symbol_if_needed exRest wBuyCross.symbol).order_books
              wBuyCross.symbol).getD ⟨[], []⟩).sell)
      else (if wBuyCross.side = "BUY"
        then (((init_symbol_if_needed exRest wBuyCross.symbol).order_books
          wBuyCross.symbol).getD ⟨[], []⟩).buy
        else (((init_symbol_if_needed exRest wBuyCross.symbol).order_books
          wBuyCross.symbol).getD ⟨[], []⟩).sell)) :=
  c6_residual exRest
    (reachable_processAll emptyExchange Reachable.empty [wSellA, wBuyA, wSellA2, wBuyA2])
    wBuyCross (by decide)

/-- `c9_unknown_side` evaluated on an order with side `"HOLD"`: it is
processed as a SELL, and the books agree with the `"SELL"` run. -/
theorem c9_unknown_side_witness :
    (on_order_received exRest wFoo).2 = (on_order_received exRest (withSellSide wFoo)).2 ∧
    (((on_order_received exRest wFoo).1.order_books wFoo.symbol).getD ⟨[], []⟩).buy
      = (((on_order_received exRest (withSellSide wFoo)).1.order_books
          wFoo.symbol).getD ⟨[], []⟩).buy ∧
    ((((on_order_received exRest wFoo).1.order_books wFoo.symbol).getD
        ⟨[], []⟩).sell).map withSellSide
      = ((((on_order_received exRest (withSellSide wFoo)).1.order_books
          wFoo.symbol).getD ⟨[], []⟩).sell).map withSellSide :=
  ⟨(c9_unknown_side exRest
      (reachable_processAll emptyExchange Reachable.empty [wSellA, wBuyA, wSellA2, wBuyA2])
      wFoo (by decide)).2.1,
   ((c9_unknown_side exRest
      (reachable_processAll emptyExchange Reachable.empty [wSellA, wBuyA, wSellA2, wBuyA2])
      wFoo (by decide)).2.2.2 _ _ (by decide) (by decide)).1,
   ((c9_unknown_side exRest
      (reachable_processAll emptyExchange Reachable.empty [wSellA, wBuyA, wSellA2, wBuyA2])
      wFoo (by decide)).2.2.2 _ _ (by decide) (by decide)).2⟩

/-- `c10_zero_quantity` evaluated on a zero-quantity order against a
populated book. -/
theorem c10_zero_quantity_witness :
    (on_order_received exRest wZero).2 = [] ∧
    (on_order_received exRest wZero).1.order_books "AAPL"
      = if "AAPL" = wZero.symbol ∧ exRest.order_books wZero.symbol = none then some ⟨[], []⟩
        else exRest.order_books "AAPL" :=
  ⟨(c10_zero_quantity exRest wZero (by decide)).1,
   (c10_zero_quantity exRest wZero (by decide)).2 "AAPL"⟩

/-- `c3_conservation` evaluated on a SELL resting then a BUY partially
consuming it. -/
theorem c3_conservation_witness :
    tradedQty "AAPL" (processAll emptyExchange [wSellA, wBuyCross]).2
      ≤ submittedQty "AAPL" true [wSellA, wBuyCross] ∧
    tradedQty "AAPL" (processAll emptyExchange [wSellA, wBuyCross]).2
      ≤ submittedQty "AAPL" false [wSellA, wBuyCross] ∧
    restingQty (processAll emptyExchange [wSellA, wBuyCross]).1 "AAPL" true
      + tradedQty "AAPL" (processAll emptyExchange [wSellA, wBuyCross]).2
      = submittedQty "AAPL" true [wSellA, wBuyCross] ∧
    restingQty (processAll emptyExchange [wSellA, wBuyCross]).1 "AAPL" false
      + tradedQty "AAPL" (processAll emptyExchange [wSellA, wBuyCross]).2
      = submittedQty "AAPL" false [wSellA, wBuyCross] :=
  c3_conservation [wSellA, wBuyCross] (by decide) "AAPL"

end TradingSys
